import Mathlib

/-!
# Verification of the plato EPUB XML parser (`src/document/epub/xml.rs`)

This file gives a shallow embedding of the fault-tolerant XML parser and the
entity decoder of the repository, and proves the frozen claims about them.

Modelling conventions:

* Rust `&str` buffers are modelled as `List Char`.  The Rust parser keeps a
  *byte* offset `offset` into the input which, by construction, always lies on
  a UTF-8 character boundary (it only ever moves by whole `len_utf8` steps from
  0).  We therefore track the cursor as a *code-point* index `pos`; the byte
  offset it denotes is `byteOff input pos`, the sum of the UTF-8 sizes of the
  characters before `pos`.  All node offsets are stored as byte offsets, as in
  the source.  Slicing a `List Char` cannot land in the middle of a character,
  which mirrors the fact (proved via the checked variants below) that the Rust
  code never slices off a character boundary.
* The two unbounded `while` loops and the mutually recursive
  `parse_element`/`parse_nodes` pair are written with an explicit fuel
  parameter, so that every function is structurally recursive and computable
  by kernel reduction.  `input.length + 1` fuel is always sufficient: every
  iteration consumes at least one code point.  This is proved as part of the
  totality claim (fuel-independence above the bound).
* Operations that can panic in Rust (`offset - 1` underflow on `usize`,
  range slices `&s[a..b]` with `a > b`) are modelled twice: the main
  definitions use total arithmetic, and the *checked* variants (`…C`) return
  `none` exactly where the Rust operation would panic.  The totality claim
  proves the checked variants never return `none`.
-/

/-- UTF-8 byte length of a list of characters. -/
def utf8Len (cs : List Char) : Nat := (cs.map Char.utf8Size).sum

/-- The byte offset corresponding to code-point position `pos` of `input`. -/
def byteOff (input : List Char) (pos : Nat) : Nat := utf8Len (input.take pos)

/-- Rust's `char::is_whitespace`: the Unicode `White_Space` property.
(`Char.isWhitespace` of Lean core covers only four characters, so we spell out
the full Unicode set used by the source.) -/
def rustIsWhitespace (c : Char) : Bool :=
  c = '\u0009' || c = '\u000A' || c = '\u000B' || c = '\u000C' ||
  c = '\u000D' || c = '\u0020' || c = '\u0085' || c = '\u00A0' ||
  c = '\u1680' || c = '\u2000' || c = '\u2001' || c = '\u2002' ||
  c = '\u2003' || c = '\u2004' || c = '\u2005' || c = '\u2006' ||
  c = '\u2007' || c = '\u2008' || c = '\u2009' || c = '\u200A' ||
  c = '\u2028' || c = '\u2029' || c = '\u202F' || c = '\u205F' ||
  c = '\u3000'

/-- Modelled from the spec: the `Attributes` type of the (missing) `dom`
module, used by `xml.rs` as `FnvHashMap<String, String>`: "a mapping from
attribute key (string) to attribute value (string), keys unique within one
element, insertion/iteration order irrelevant; last write wins if the source
repeats a key."  We model the map as an association list with unique keys,
observed only through `attrsGet`. -/
abbrev Attributes := List (String × String)

/-- `HashMap::insert`: overwrite the value of an existing key, otherwise add
the binding. -/
def attrsInsert (m : Attributes) (k v : String) : Attributes :=
  if m.any (fun kv => kv.1 = k) then
    m.map (fun kv => if kv.1 = k then (k, v) else kv)
  else
    m ++ [(k, v)]

/-- `HashMap` lookup (`attr` accessor of the dom). -/
def attrsGet : Attributes → String → Option String
  | [], _ => none
  | (k', v) :: m, k => if k' = k then some v else attrsGet m k

/-- Modelled from the spec: the `Node` type of the (missing) `dom` module:
"a tagged union with three variants, each carrying a byte offset into the
original buffer marking where it begins": Element (name, byte offset,
attribute mapping, ordered children), Text (literal content, byte offset),
Whitespace (literal whitespace-only content, byte offset). -/
inductive Node where
  | Element (name : String) (offset : Nat) (attributes : Attributes) (children : List Node)
  | Text (content : String) (offset : Nat)
  | Whitespace (content : String) (offset : Nat)
deriving Repr

/-- Modelled from the spec: the `element` constructor helper of the dom. -/
def element (name : String) (offset : Nat) (attributes : Attributes)
    (children : List Node) : Node :=
  Node.Element name offset attributes children

/-- Modelled from the spec: the `text` constructor helper of the dom. -/
def text (content : String) (offset : Nat) : Node := Node.Text content offset

/-- Modelled from the spec: the `whitespace` constructor helper of the dom. -/
def whitespace (content : String) (offset : Nat) : Node :=
  Node.Whitespace content offset

/-- The parser state: the input buffer and the current position (a code-point
index; see the header for the byte-offset correspondence). -/
structure XmlParser where
  input : List Char
  pos : Nat
deriving Repr, DecidableEq

namespace XmlParser

/-- `XmlParser::new`. -/
def new (input : String) : XmlParser := ⟨input.data, 0⟩

/-- The un-consumed remainder `&self.input[self.offset..]`. -/
def rest (p : XmlParser) : List Char := p.input.drop p.pos

/-- `self.offset >= self.input.len()`. -/
def eof (p : XmlParser) : Bool := p.input.length ≤ p.pos

/-- `self.input[self.offset..].chars().next()`. -/
def next (p : XmlParser) : Option Char := p.rest.head?

/-- `self.input[self.offset..].starts_with(s)`. -/
def starts_with (p : XmlParser) (s : List Char) : Bool := s.isPrefixOf p.rest

/-- `advance(n)`: move forward by `n` code points (fewer if input ends). -/
def advance (p : XmlParser) (n : Nat) : XmlParser :=
  ⟨p.input, p.pos + min n p.rest.length⟩

/-- `advance_while(test)`: move forward while the next code point satisfies
`test`. -/
def advance_while (p : XmlParser) (test : Char → Bool) : XmlParser :=
  ⟨p.input, p.pos + (p.rest.takeWhile test).length⟩

/-- The loop of `advance_until`, with explicit fuel: consume one code point,
skip to the next occurrence of `first`, test for a full match of `target`. -/
def advance_untilF (target : List Char) (first : Char) : Nat → XmlParser → XmlParser
  | 0, p => p
  | fuel + 1, p =>
    if p.eof then p
    else
      let p2 := (p.advance 1).advance_while (fun c => c != first)
      if p2.starts_with target then p2
      else advance_untilF target first fuel p2

/-- `advance_until(target)`. -/
def advance_until (p : XmlParser) (target : List Char) : XmlParser :=
  match target with
  | [] => p
  | first :: _ =>
    (advance_untilF target first (p.input.length + 1) p).advance target.length

/-- The slice `&self.input[i..j]` (positions in code points). -/
def slice (p : XmlParser) (i j : Nat) : String :=
  String.mk ((p.input.drop i).take (j - i))

/-- The loop of `parse_attributes`, with explicit fuel. -/
def parse_attributesF : Nat → XmlParser → Attributes → XmlParser × Attributes
  | 0, p, attrs => (p, attrs)
  | fuel + 1, p, attrs =>
    if p.eof then (p, attrs)
    else
      let p1 := p.advance_while rustIsWhitespace
      match p1.next with
      | some '>' | some '/' | none => (p1, attrs)
      | _ =>
        let p2 := p1.advance_while (fun c => c != '=')
        let key := p1.slice p1.pos p2.pos
        let p3 := p2.advance_while (fun c => c != '"' && c != '\'')
        let quote := p3.next.getD '"'
        let p4 := p3.advance 1
        let p5 := p4.advance_while (fun c => c != quote)
        let value := p4.slice p4.pos p5.pos
        let p6 := p5.advance 1
        parse_attributesF fuel p6 (attrsInsert attrs key value)

/-- `parse_attributes`.  `input.length + 1` fuel always suffices: every loop
iteration consumes at least one code point. -/
def parse_attributes (p : XmlParser) : XmlParser × Attributes :=
  parse_attributesF (p.input.length + 1) p []

/-- The body of `parse_element`, parameterised by the recursive call to
`parse_nodes` (which supplies the fuel); `parse_element` pushes at most one
node, returned here as an `Option`. -/
def parse_elementAux (parseNodes : XmlParser → XmlParser × List Node)
    (p : XmlParser) : XmlParser × Option Node :=
  let offset := p.pos
  let p1 := p.advance_while (fun c => c != '>' && c != '/' && !(rustIsWhitespace c))
  let name := p.slice offset p1.pos
  let pa := p1.parse_attributes
  let p2 := pa.1
  let attributes := pa.2
  match p2.next with
  | some '/' =>
    (p2.advance 2, some (element name (byteOff p.input offset - 1) attributes []))
  | some '>' =>
    let pr := parseNodes (p2.advance 1)
    (pr.1, some (element name (byteOff p.input offset - 1) attributes pr.2))
  | _ => (p2, none)

/-- The loop of `parse_nodes`, with explicit fuel; `nodes` is the accumulator
vector.  The `parse_element` call is `parse_elementAux` applied to the
recursive call at the smaller fuel. -/
def parse_nodesF : Nat → XmlParser → List Node → XmlParser × List Node
  | 0, p, nodes => (p, nodes)
  | fuel + 1, p, nodes =>
    if p.eof then (p, nodes)
    else
      let offset := p.pos
      let p1 := p.advance_while rustIsWhitespace
      match p1.next with
      | some '<' =>
        let nodes1 :=
          if offset < p1.pos then
            nodes ++ [whitespace (p.slice offset p1.pos) (byteOff p.input offset)]
          else nodes
        if p1.starts_with ['<', '/'] then
          let p2 := p1.advance 2
          let p3 := p2.advance_while (fun c => c != '>')
          (p3.advance 1, nodes1)
        else
          let p2 := p1.advance 1
          match p2.next with
          | some '?' =>
            parse_nodesF fuel ((p2.advance 1).advance_until ['?', '>']) nodes1
          | some '!' =>
            let p3 := p2.advance 1
            match p3.next with
            | some '-' =>
              parse_nodesF fuel ((p3.advance 2).advance_until ['-', '-', '>']) nodes1
            | some '[' =>
              parse_nodesF fuel ((p3.advance 1).advance_until [']', ']', '>']) nodes1
            | _ =>
              let p4 := p3.advance_while (fun c => c != '>')
              parse_nodesF fuel (p4.advance 1) nodes1
          | _ =>
            match parse_elementAux (fun q => parse_nodesF fuel q []) p2 with
            | (p3, some node) => parse_nodesF fuel p3 (nodes1 ++ [node])
            | (p3, none) => parse_nodesF fuel p3 nodes1
      | some _ =>
        let p2 := p1.advance_while (fun c => c != '<')
        parse_nodesF fuel p2
          (nodes ++ [text (p.slice offset p2.pos) (byteOff p.input offset)])
      | none => (p1, nodes)

/-- `parse_element` as in the source: the recursive `parse_nodes` call runs at
the given fuel. -/
def parse_elementF (fuel : Nat) (p : XmlParser) : XmlParser × Option Node :=
  parse_elementAux (fun q => parse_nodesF fuel q []) p

/-- `parse_nodes`.  `input.length + 1` fuel always suffices. -/
def parse_nodes (p : XmlParser) : XmlParser × List Node :=
  parse_nodesF (p.input.length + 1) p []

/-- `parse`: parse the sibling list at top level; a single node is returned
directly, otherwise a synthetic `"root"` element at offset 0 wraps it. -/
def parse (p : XmlParser) : Node :=
  match p.parse_nodes with
  | (_, [n]) => n
  | (_, nodes) => element "root" 0 [] nodes

end XmlParser

/-- `XmlParser::new(s).parse()`. -/
def parseString (s : String) : Node := (XmlParser.new s).parse

/-- Modelled from the external `entities` crate (not part of this repository):
`CHARACTER_ENTITIES` maps each HTML named character reference — delimiters
included — to its expansion.  We list the entries exercised by this
development; the crate's table also has entries without a trailing `;`, which
the decoder can never look up (its keys always end in `;`). -/
def CHARACTER_ENTITIES : List (String × String) :=
  [("&amp;", "&"), ("&lt;", "<"), ("&gt;", ">"), ("&quot;", "\""),
   ("&apos;", "'"), ("&nbsp;", " "), ("&copy;", "©")]

/-- `str::find(char)`: index of the first occurrence. -/
def findChar (c : Char) : List Char → Option Nat
  | [] => none
  | x :: xs => if x = c then some 0 else (findChar c xs).map (· + 1)

/-- `char::from_u32`: `some` exactly on Unicode scalar values. -/
def charFromU32 (n : Nat) : Option Char :=
  if n.isValidChar then some (Char.ofNat n) else none

/-- A digit and its value, as accepted by `u32::from_str_radix` (case
insensitive). -/
def digitVal (c : Char) : Option Nat :=
  if '0' ≤ c ∧ c ≤ '9' then some (c.toNat - '0'.toNat)
  else if 'a' ≤ c ∧ c ≤ 'z' then some (c.toNat - 'a'.toNat + 10)
  else if 'A' ≤ c ∧ c ≤ 'Z' then some (c.toNat - 'A'.toNat + 10)
  else none

/-- The digit loop of `u32::from_str_radix`, with the `u32` overflow check. -/
def fromStrRadixCore (radix : Nat) : List Char → Nat → Option Nat
  | [], acc => some acc
  | c :: cs, acc =>
    match digitVal c with
    | some d =>
      if d < radix then
        if acc * radix + d < 4294967296 then
          fromStrRadixCore radix cs (acc * radix + d)
        else none
      else none
    | none => none

/-- `u32::from_str_radix`: an optional leading `+`, then one or more digits
for the radix; errors (`none`) on an empty digit string, an invalid digit, or
`u32` overflow. -/
def fromStrRadix (radix : Nat) (s : List Char) : Option Nat :=
  match s with
  | [] => none
  | '+' :: rest => if rest.isEmpty then none else fromStrRadixCore radix rest 0
  | _ => fromStrRadixCore radix s 0

/-- The numeric-reference arm of `decode_entities`: `cursor` starts at the
`&`, `endI` is the index of the first `;`.  Base 16 when a lowercase `x`
follows `&#`, else base 10; `drift` skips `&#` or `&#x`. -/
def numericRef (cursor : List Char) (endI : Nat) : Option Char :=
  let radix := if (cursor.drop 2).head? = some 'x' then 16 else 10
  let drift := 2 + radix / 16
  match fromStrRadix radix ((cursor.drop drift).take (endI - drift)) with
  | some n => charFromU32 n
  | none => none

/-- The scan loop of `decode_entities`, with explicit fuel; `buf` is the
output accumulator. -/
def decodeLoopF : Nat → List Char → List Char → List Char
  | 0, cursor, buf => buf ++ cursor
  | fuel + 1, cursor, buf =>
    match findChar '&' cursor with
    | none => buf ++ cursor
    | some start =>
      let buf1 := buf ++ cursor.take start
      let cursor1 := cursor.drop start
      match findChar ';' cursor1 with
      | none => buf1 ++ cursor1
      | some endI =>
        let key := cursor1.take (endI + 1)
        let buf2 :=
          match attrsGet CHARACTER_ENTITIES (String.mk key) with
          | some repl => buf1 ++ repl.data
          | none =>
            if (cursor1.drop 1).head? = some '#' then
              match numericRef cursor1 endI with
              | some ch => buf1 ++ [ch]
              | none => buf1 ++ key
            else buf1 ++ key
        decodeLoopF fuel (cursor1.drop (endI + 1)) buf2

/-- The decode scan on a character list.  `length + 1` fuel always suffices:
every iteration consumes at least the `&…;` span. -/
def decodeList (cs : List Char) : List Char := decodeLoopF (cs.length + 1) cs []

/-- `decode_entities`, with the zero-copy fast path for `&`-free text. -/
def decode_entities (s : String) : String :=
  match findChar '&' s.data with
  | none => s
  | some _ => String.mk (decodeList s.data)

/-!
## Checked variants

These repeat the definitions above, but return `none` exactly where the Rust
code would hit a panicking primitive on that control path: the `usize`
subtraction `offset - 1` in `parse_element` (panics on underflow), and the
range slice `&cursor[drift_index..end_index]` in `decode_entities` (panics
when `drift_index > end_index`).  The totality claim proves they always
return `some`, i.e. that no panic can occur.
-/

namespace XmlParser

/-- Checked `parse_element`: `none` models the `offset - 1` underflow panic. -/
def parse_elementCAux (parseNodesC : XmlParser → Option (XmlParser × List Node))
    (p : XmlParser) : Option (XmlParser × Option Node) :=
  let offset := p.pos
  let p1 := p.advance_while (fun c => c != '>' && c != '/' && !(rustIsWhitespace c))
  let name := p.slice offset p1.pos
  let pa := p1.parse_attributes
  let p2 := pa.1
  let attributes := pa.2
  match p2.next with
  | some '/' =>
    if byteOff p.input offset = 0 then none
    else some (p2.advance 2,
      some (element name (byteOff p.input offset - 1) attributes []))
  | some '>' =>
    if byteOff p.input offset = 0 then none
    else
      match parseNodesC (p2.advance 1) with
      | none => none
      | some pr =>
        some (pr.1, some (element name (byteOff p.input offset - 1) attributes pr.2))
  | _ => some (p2, none)

/-- Checked `parse_nodes` loop. -/
def parse_nodesCF : Nat → XmlParser → List Node → Option (XmlParser × List Node)
  | 0, p, nodes => some (p, nodes)
  | fuel + 1, p, nodes =>
    if p.eof then some (p, nodes)
    else
      let offset := p.pos
      let p1 := p.advance_while rustIsWhitespace
      match p1.next with
      | some '<' =>
        let nodes1 :=
          if offset < p1.pos then
            nodes ++ [whitespace (p.slice offset p1.pos) (byteOff p.input offset)]
          else nodes
        if p1.starts_with ['<', '/'] then
          let p2 := p1.advance 2
          let p3 := p2.advance_while (fun c => c != '>')
          some (p3.advance 1, nodes1)
        else
          let p2 := p1.advance 1
          match p2.next with
          | some '?' =>
            parse_nodesCF fuel ((p2.advance 1).advance_until ['?', '>']) nodes1
          | some '!' =>
            let p3 := p2.advance 1
            match p3.next with
            | some '-' =>
              parse_nodesCF fuel ((p3.advance 2).advance_until ['-', '-', '>']) nodes1
            | some '[' =>
              parse_nodesCF fuel ((p3.advance 1).advance_until [']', ']', '>']) nodes1
            | _ =>
              let p4 := p3.advance_while (fun c => c != '>')
              parse_nodesCF fuel (p4.advance 1) nodes1
          | _ =>
            match parse_elementCAux (fun q => parse_nodesCF fuel q []) p2 with
            | none => none
            | some (p3, some node) => parse_nodesCF fuel p3 (nodes1 ++ [node])
            | some (p3, none) => parse_nodesCF fuel p3 nodes1
      | some _ =>
        let p2 := p1.advance_while (fun c => c != '<')
        parse_nodesCF fuel p2
          (nodes ++ [text (p.slice offset p2.pos) (byteOff p.input offset)])
      | none => some (p1, nodes)

end XmlParser

/-- Checked `parse`. -/
def parseStringC (s : String) : Option Node :=
  match XmlParser.parse_nodesCF ((XmlParser.new s).input.length + 1) (XmlParser.new s) [] with
  | none => none
  | some (_, [n]) => some n
  | some (_, nodes) => some (element "root" 0 [] nodes)

/-- Checked decode loop: `none` models the slice panic
`&cursor[drift_index..end_index]` when `drift_index > end_index`. -/
def decodeLoopCF : Nat → List Char → List Char → Option (List Char)
  | 0, cursor, buf => some (buf ++ cursor)
  | fuel + 1, cursor, buf =>
    match findChar '&' cursor with
    | none => some (buf ++ cursor)
    | some start =>
      let buf1 := buf ++ cursor.take start
      let cursor1 := cursor.drop start
      match findChar ';' cursor1 with
      | none => some (buf1 ++ cursor1)
      | some endI =>
        let key := cursor1.take (endI + 1)
        match attrsGet CHARACTER_ENTITIES (String.mk key) with
        | some repl => decodeLoopCF fuel (cursor1.drop (endI + 1)) (buf1 ++ repl.data)
        | none =>
          if (cursor1.drop 1).head? = some '#' then
            let radix : Nat := if (cursor1.drop 2).head? = some 'x' then 16 else 10
            let drift := 2 + radix / 16
            if endI < drift then none
            else
              match numericRef cursor1 endI with
              | some ch => decodeLoopCF fuel (cursor1.drop (endI + 1)) (buf1 ++ [ch])
              | none => decodeLoopCF fuel (cursor1.drop (endI + 1)) (buf1 ++ key)
          else decodeLoopCF fuel (cursor1.drop (endI + 1)) (buf1 ++ key)

/-- Checked `decode_entities`. -/
def decode_entitiesC (s : String) : Option String :=
  match findChar '&' s.data with
  | none => some s
  | some _ => (decodeLoopCF (s.data.length + 1) s.data []).map String.mk

set_option maxHeartbeats 1000000

/-- The number of not yet consumed code points. -/
def XmlParser.rem (p : XmlParser) : Nat := p.input.length - p.pos

/-- The offset invariant of the document tree over a buffer `input`:
an Element node's offset is the byte index of a `<` of the buffer (and its
children satisfy the invariant recursively); a Text or Whitespace node's
offset is the byte index of a position from which its content occurs
literally in the buffer. -/
inductive NodeOk (input : List Char) : Node → Prop where
  | element {name o attrs children} :
      (∃ k, input[k]? = some '<' ∧ o = byteOff input k) →
      (∀ c ∈ children, NodeOk input c) →
      NodeOk input (Node.Element name o attrs children)
  | text {s o} :
      (∃ k, o = byteOff input k ∧ s.data <+: input.drop k) →
      NodeOk input (Node.Text s o)
  | whitespace {s o} :
      (∃ k, o = byteOff input k ∧ s.data <+: input.drop k) →
      NodeOk input (Node.Whitespace s o)


/-- One rendered attribute: optional whitespace, key, `=`, quote, value,
closing quote. -/
def renderAttr (w k : List Char) (q : Char) (v : List Char) : List Char :=
  w ++ (k ++ ('=' :: q :: (v ++ [q])))

/-- A rendered attribute list. -/
def renderAttrs : List (List Char × List Char × Char × List Char) → List Char
  | [] => []
  | (w, k, q, v) :: rest => renderAttr w k q v ++ renderAttrs rest

/-- Well-formedness of one attribute specification: the leading gap is
whitespace, the key is nonempty, does not start with `>`, `/` or whitespace
and contains no `=`, the quote is `"` or `'`, and the value avoids the
delimiting quote (the other quote character may occur in it). -/
def attrSpecOk : List Char × List Char × Char × List Char → Prop
  | (w, k, q, v) =>
    (∀ x ∈ w, rustIsWhitespace x = true) ∧ k ≠ [] ∧
    (∀ c, k.head? = some c → c ≠ '>' ∧ c ≠ '/' ∧ c ≠ '=' ∧
      rustIsWhitespace c = false) ∧
    '=' ∉ k ∧ (q = '"' ∨ q = '\'') ∧ q ∉ v

/-- The map obtained by inserting the rendered attributes in order. -/
def insertSpecs (m : Attributes) :
    List (List Char × List Char × Char × List Char) → Attributes
  | [] => m
  | (_, k, _, v) :: rest => insertSpecs (attrsInsert m (String.mk k) (String.mk v)) rest


/-- The characters one `&…;` span contributes to the output: the table
expansion when the key from `&` through `;` is known; else, for `&#…;`, the
numeric reference's character when valid; else the literal span.  This
factors the common shape of the three `buf.push…` arms of the scan loop. -/
def entityExpansion (cursor1 : List Char) (endI : Nat) : List Char :=
  match attrsGet CHARACTER_ENTITIES (String.mk (cursor1.take (endI + 1))) with
  | some repl => repl.data
  | none =>
    if (cursor1.drop 1).head? = some '#' then
      match numericRef cursor1 endI with
      | some ch => [ch]
      | none => cursor1.take (endI + 1)
    else cursor1.take (endI + 1)


/-! ## Basic list and scanner lemmas -/

lemma drop_add {α : Type} (l : List α) (a b : Nat) :
    l.drop (a + b) = (l.drop a).drop b := by
  rw [List.drop_drop, Nat.add_comm]

lemma drop_min_len {α : Type} (xs : List α) (n : Nat) :
    xs.drop (min n xs.length) = xs.drop n := by
  rcases Nat.le_total n xs.length with h | h
  · rw [Nat.min_eq_left h]
  · rw [Nat.min_eq_right h, List.drop_eq_nil_of_le h, List.drop_eq_nil_of_le le_rfl]

lemma drop_takeWhile_len {α : Type} (f : α → Bool) (xs : List α) :
    xs.drop (xs.takeWhile f).length = xs.dropWhile f := by
  induction xs with
  | nil => rfl
  | cons c t ih =>
    by_cases h : f c
    · simpa [List.takeWhile_cons, List.dropWhile_cons, h] using ih
    · simp [List.takeWhile_cons, List.dropWhile_cons, h]

lemma utf8Len_append (a b : List Char) : utf8Len (a ++ b) = utf8Len a + utf8Len b := by
  simp [utf8Len]

lemma byteOff_succ (input : List Char) (k : Nat) (c : Char) (h : input[k]? = some c) :
    byteOff input (k + 1) = byteOff input k + c.utf8Size := by
  rw [byteOff, byteOff, List.take_succ, h, utf8Len_append]
  simp [utf8Len]

lemma byteOff_succ_pos (input : List Char) (k : Nat) (c : Char) (h : input[k]? = some c) :
    1 ≤ byteOff input (k + 1) := by
  rw [byteOff_succ input k c h]
  have := c.utf8Size_pos
  omega

namespace XmlParser

@[simp] lemma input_advance (p : XmlParser) (n : Nat) : (p.advance n).input = p.input := rfl

@[simp] lemma input_advance_while (p : XmlParser) (f : Char → Bool) :
    (p.advance_while f).input = p.input := rfl

@[simp] lemma pos_advance_while (p : XmlParser) (f : Char → Bool) :
    (p.advance_while f).pos = p.pos + (p.rest.takeWhile f).length := rfl

lemma length_rest (p : XmlParser) : p.rest.length = p.rem := by
  simp [rest, rem]

@[simp] lemma rest_advance (p : XmlParser) (n : Nat) :
    (p.advance n).rest = p.rest.drop n := by
  simp only [rest, advance]
  rw [drop_add]
  exact drop_min_len _ _

@[simp] lemma rest_advance_while (p : XmlParser) (f : Char → Bool) :
    (p.advance_while f).rest = p.rest.dropWhile f := by
  simp only [rest, advance_while]
  rw [drop_add]
  exact drop_takeWhile_len _ _

lemma pos_advance (p : XmlParser) (n : Nat) :
    (p.advance n).pos = p.pos + min n p.rest.length := rfl

lemma pos_le_advance (p : XmlParser) (n : Nat) : p.pos ≤ (p.advance n).pos := by
  rw [pos_advance]; omega

lemma pos_le_advance_while (p : XmlParser) (f : Char → Bool) :
    p.pos ≤ (p.advance_while f).pos := by
  rw [pos_advance_while]; omega

lemma eof_iff_rest (p : XmlParser) : p.eof = true ↔ p.rest = [] := by
  simp [eof, rest, List.drop_eq_nil_iff]

lemma rest_ne_of_next (p : XmlParser) (c : Char) (h : p.next = some c) :
    p.rest ≠ [] := by
  intro hr
  rw [next, hr] at h
  exact absurd h (by simp)

lemma eof_false_of_next (p : XmlParser) (c : Char) (h : p.next = some c) :
    p.eof = false := by
  rcases he : p.eof
  · rfl
  · rw [eof_iff_rest] at he
    exact absurd he (p.rest_ne_of_next c h)

lemma pos_lt_of_next (p : XmlParser) (c : Char) (h : p.next = some c) :
    p.pos < p.input.length := by
  have he := p.eof_false_of_next c h
  simp only [eof, decide_eq_false_iff_not, Nat.not_le] at he
  exact he

lemma pos_advance_one (p : XmlParser) (c : Char) (h : p.next = some c) :
    (p.advance 1).pos = p.pos + 1 := by
  rw [pos_advance]
  rcases hr : p.rest with _ | ⟨d, t⟩
  · exact absurd hr (p.rest_ne_of_next c h)
  · simp [hr]

lemma advance_while_progress (p : XmlParser) (f : Char → Bool) (c : Char)
    (hc : p.next = some c) (hf : f c = true) :
    p.pos + 1 ≤ (p.advance_while f).pos := by
  rw [pos_advance_while]
  rcases hr : p.rest with _ | ⟨d, t⟩
  · exact absurd hr (p.rest_ne_of_next c hc)
  · rw [next, hr] at hc
    simp only [List.head?_cons, Option.some.injEq] at hc
    subst hc
    simp [List.takeWhile_cons, hf]

/-- `parse_attributesF` preserves the input and never moves backwards. -/
lemma parse_attributesF_mono (fuel : Nat) :
    ∀ p attrs, (parse_attributesF fuel p attrs).1.input = p.input ∧
      p.pos ≤ (parse_attributesF fuel p attrs).1.pos := by
  induction fuel with
  | zero => intro p attrs; exact ⟨rfl, le_rfl⟩
  | succ n ih =>
    intro p attrs
    rw [parse_attributesF]
    split
    · exact ⟨rfl, le_rfl⟩
    · dsimp only
      split
      · exact ⟨rfl, p.pos_le_advance_while _⟩
      · exact ⟨rfl, p.pos_le_advance_while _⟩
      · exact ⟨rfl, p.pos_le_advance_while _⟩
      · constructor
        · exact (ih _ _).1.trans (by simp only [input_advance, input_advance_while])
        · refine le_trans ?_ (ih _ _).2
          refine le_trans ?_ (pos_le_advance _ _)
          refine le_trans ?_ (pos_le_advance_while _ _)
          refine le_trans ?_ (pos_le_advance _ _)
          refine le_trans ?_ (pos_le_advance_while _ _)
          refine le_trans ?_ (pos_le_advance_while _ _)
          exact p.pos_le_advance_while _

lemma parse_attributes_mono (p : XmlParser) :
    p.parse_attributes.1.input = p.input ∧ p.pos ≤ p.parse_attributes.1.pos :=
  parse_attributesF_mono _ p []

lemma advance_untilF_mono (target : List Char) (first : Char) (fuel : Nat) :
    ∀ p, (advance_untilF target first fuel p).input = p.input ∧
      p.pos ≤ (advance_untilF target first fuel p).pos := by
  induction fuel with
  | zero => intro p; exact ⟨rfl, le_rfl⟩
  | succ n ih =>
    intro p
    rw [advance_untilF]
    split
    · exact ⟨rfl, le_rfl⟩
    · dsimp only
      split
      · exact ⟨rfl, le_trans (p.pos_le_advance 1) (pos_le_advance_while _ _)⟩
      · constructor
        · exact (ih _).1.trans (by simp only [input_advance, input_advance_while])
        · refine le_trans ?_ (ih _).2
          refine le_trans ?_ (pos_le_advance_while _ _)
          exact p.pos_le_advance 1

lemma advance_until_mono (p : XmlParser) (target : List Char) :
    (p.advance_until target).input = p.input ∧ p.pos ≤ (p.advance_until target).pos := by
  rw [advance_until.eq_def]
  split
  · exact ⟨rfl, le_rfl⟩
  · constructor
    · rw [input_advance]; exact (advance_untilF_mono _ _ _ p).1
    · exact le_trans (advance_untilF_mono _ _ _ p).2 (pos_le_advance _ _)

lemma parse_elementAux_mono (parseNodes : XmlParser → XmlParser × List Node)
    (hrec : ∀ q, (parseNodes q).1.input = q.input ∧ q.pos ≤ (parseNodes q).1.pos)
    (p : XmlParser) :
    (parse_elementAux parseNodes p).1.input = p.input ∧
      p.pos ≤ (parse_elementAux parseNodes p).1.pos := by
  rw [parse_elementAux]
  dsimp only
  have hattrs := parse_attributes_mono (p.advance_while
    (fun c => c != '>' && c != '/' && !(rustIsWhitespace c)))
  split
  · constructor
    · rw [input_advance, hattrs.1, input_advance_while]
    · refine le_trans ?_ (pos_le_advance _ _)
      exact le_trans (p.pos_le_advance_while _) hattrs.2
  · constructor
    · rw [(hrec _).1, input_advance, hattrs.1, input_advance_while]
    · refine le_trans ?_ (hrec _).2
      refine le_trans ?_ (pos_le_advance _ _)
      exact le_trans (p.pos_le_advance_while _) hattrs.2
  · constructor
    · rw [hattrs.1, input_advance_while]
    · exact le_trans (p.pos_le_advance_while _) hattrs.2

/-- `parse_nodesF` preserves the input and never moves backwards. -/
lemma parse_nodesF_mono (fuel : Nat) :
    ∀ p nodes, (parse_nodesF fuel p nodes).1.input = p.input ∧
      p.pos ≤ (parse_nodesF fuel p nodes).1.pos := by
  induction fuel with
  | zero => intro p nodes; exact ⟨rfl, le_rfl⟩
  | succ n ih =>
    intro p nodes
    rw [parse_nodesF]
    split
    · exact ⟨rfl, le_rfl⟩
    · dsimp only
      split
      · -- next is some '<'
        split
        · constructor
          · simp only [input_advance, input_advance_while]
          · refine le_trans ?_ (pos_le_advance _ _)
            refine le_trans ?_ (pos_le_advance_while _ _)
            refine le_trans ?_ (pos_le_advance _ _)
            exact p.pos_le_advance_while _
        · split
          · -- some '?'
            constructor
            · exact (ih _ _).1.trans ((advance_until_mono _ _).1.trans
                (by simp only [input_advance, input_advance_while]))
            · refine le_trans ?_ (ih _ _).2
              refine le_trans ?_ (advance_until_mono _ _).2
              refine le_trans ?_ (pos_le_advance _ _)
              refine le_trans ?_ (pos_le_advance _ _)
              exact p.pos_le_advance_while _
          · -- some '!'
            split
            · constructor
              · exact (ih _ _).1.trans ((advance_until_mono _ _).1.trans
                  (by simp only [input_advance, input_advance_while]))
              · refine le_trans ?_ (ih _ _).2
                refine le_trans ?_ (advance_until_mono _ _).2
                refine le_trans ?_ (pos_le_advance _ _)
                refine le_trans ?_ (pos_le_advance _ _)
                refine le_trans ?_ (pos_le_advance _ _)
                exact p.pos_le_advance_while _
            · constructor
              · exact (ih _ _).1.trans ((advance_until_mono _ _).1.trans
                  (by simp only [input_advance, input_advance_while]))
              · refine le_trans ?_ (ih _ _).2
                refine le_trans ?_ (advance_until_mono _ _).2
                refine le_trans ?_ (pos_le_advance _ _)
                refine le_trans ?_ (pos_le_advance _ _)
                refine le_trans ?_ (pos_le_advance _ _)
                exact p.pos_le_advance_while _
            · constructor
              · exact (ih _ _).1.trans (by simp only [input_advance, input_advance_while])
              · refine le_trans ?_ (ih _ _).2
                refine le_trans ?_ (pos_le_advance _ _)
                refine le_trans ?_ (pos_le_advance_while _ _)
                refine le_trans ?_ (pos_le_advance _ _)
                refine le_trans ?_ (pos_le_advance _ _)
                exact p.pos_le_advance_while _
          · -- element
            have helem := parse_elementAux_mono (fun q => parse_nodesF n q [])
              (fun q => ih q []) ((p.advance_while rustIsWhitespace).advance 1)
            split <;> rename_i p3 hopt heq2 <;> rw [heq2] at helem <;> constructor
            · exact (ih _ _).1.trans (helem.1.trans
                (by simp only [input_advance, input_advance_while]))
            · refine le_trans ?_ (ih _ _).2
              refine le_trans ?_ helem.2
              refine le_trans ?_ (pos_le_advance _ _)
              exact p.pos_le_advance_while _
            · exact (ih _ _).1.trans (helem.1.trans
                (by simp only [input_advance, input_advance_while]))
            · refine le_trans ?_ (ih _ _).2
              refine le_trans ?_ helem.2
              refine le_trans ?_ (pos_le_advance _ _)
              exact p.pos_le_advance_while _
      · -- text
        constructor
        · exact (ih _ _).1.trans (by simp only [input_advance, input_advance_while])
        · refine le_trans ?_ (ih _ _).2
          refine le_trans ?_ (pos_le_advance_while _ _)
          exact p.pos_le_advance_while _
      · exact ⟨rfl, p.pos_le_advance_while _⟩

/-! ## Fuel independence: the loops terminate within the fuel bound -/

/-- Pointwise congruence for `parse_elementAux` in its recursive argument:
the recursive call happens at a state over the same input, strictly beyond
the entry position. -/
lemma parse_elementAux_congr (pn1 pn2 : XmlParser → XmlParser × List Node)
    (p : XmlParser)
    (h : ∀ q, q.input = p.input → p.pos < q.pos → pn1 q = pn2 q) :
    parse_elementAux pn1 p = parse_elementAux pn2 p := by
  rw [parse_elementAux, parse_elementAux]
  dsimp only
  have hattrs := parse_attributes_mono (p.advance_while
    (fun c => c != '>' && c != '/' && !(rustIsWhitespace c)))
  split
  · rfl
  · rename_i heq
    have harg : ((((p.advance_while (fun c => c != '>' && c != '/' &&
        !(rustIsWhitespace c))).parse_attributes).1).advance 1).pos =
        (((p.advance_while (fun c => c != '>' && c != '/' &&
        !(rustIsWhitespace c))).parse_attributes).1).pos + 1 :=
      pos_advance_one _ '>' heq
    rw [h _ (by simp only [input_advance]; exact hattrs.1) (by
      rw [harg]
      have := p.pos_le_advance_while
        (fun c => c != '>' && c != '/' && !(rustIsWhitespace c))
      have := hattrs.2
      omega)]
  · rfl

/-- Above the bound `rem`, the result of `parse_nodesF` does not depend on the
fuel: the parse loop runs to completion within `rem` steps.  This is the
termination argument of the parser: every loop iteration and every recursive
descent consumes at least one code point. -/
lemma parse_nodesF_fuel (f1 : Nat) : ∀ f2 p nodes, p.rem < f1 → f1 ≤ f2 →
    parse_nodesF f1 p nodes = parse_nodesF f2 p nodes := by
  induction f1 with
  | zero => intro f2 p nodes h _; exact absurd h (Nat.not_lt_zero _)
  | succ n ih =>
    intro f2 p nodes hrem hle
    obtain ⟨m, rfl⟩ : ∃ m, f2 = m + 1 := ⟨f2 - 1, by omega⟩
    have hnm : n ≤ m := by omega
    rw [parse_nodesF, parse_nodesF]
    by_cases hc : p.eof = true
    · rw [if_pos hc, if_pos hc]
    · rw [if_neg hc, if_neg hc]
      dsimp only
      have hp1ge := p.pos_le_advance_while rustIsWhitespace
      split
      · -- next is some '<'
        rename_i heq
        have hp1lt : (p.advance_while rustIsWhitespace).pos < p.input.length := by
          have := (p.advance_while rustIsWhitespace).pos_lt_of_next '<' heq
          simpa using this
        have hp2 : ((p.advance_while rustIsWhitespace).advance 1).pos =
            (p.advance_while rustIsWhitespace).pos + 1 := pos_advance_one _ '<' heq
        by_cases hsw : ((p.advance_while rustIsWhitespace).starts_with ['<', '/']) = true
        · rw [if_pos hsw, if_pos hsw]
        · rw [if_neg hsw, if_neg hsw]
          split
          · -- some '?'
            refine ih m _ _ ?_ hnm
            have h1 := pos_le_advance ((p.advance_while rustIsWhitespace).advance 1) 1
            have h2 := advance_until_mono
              ((((p.advance_while rustIsWhitespace).advance 1)).advance 1) ['?', '>']
            simp only [rem] at hrem ⊢
            rw [h2.1]
            simp only [input_advance, input_advance_while]
            have h3 := h2.2
            omega
          · -- some '!'
            split
            · -- some '-'
              refine ih m _ _ ?_ hnm
              have h1 := pos_le_advance (((p.advance_while rustIsWhitespace).advance 1).advance 1) 2
              have h0 := pos_le_advance ((p.advance_while rustIsWhitespace).advance 1) 1
              have h2 := advance_until_mono
                ((((p.advance_while rustIsWhitespace).advance 1).advance 1).advance 2)
                ['-', '-', '>']
              simp only [rem] at hrem ⊢
              rw [h2.1]
              simp only [input_advance, input_advance_while]
              have h3 := h2.2
              omega
            · -- some '['
              refine ih m _ _ ?_ hnm
              have h1 := pos_le_advance (((p.advance_while rustIsWhitespace).advance 1).advance 1) 1
              have h0 := pos_le_advance ((p.advance_while rustIsWhitespace).advance 1) 1
              have h2 := advance_until_mono
                ((((p.advance_while rustIsWhitespace).advance 1).advance 1).advance 1)
                [']', ']', '>']
              simp only [rem] at hrem ⊢
              rw [h2.1]
              simp only [input_advance, input_advance_while]
              have h3 := h2.2
              omega
            · -- other declaration
              refine ih m _ _ ?_ hnm
              have h0 := pos_le_advance ((p.advance_while rustIsWhitespace).advance 1) 1
              have h1 := pos_le_advance_while
                (((p.advance_while rustIsWhitespace).advance 1).advance 1)
                (fun c => c != '>')
              have h2 := pos_le_advance
                ((((p.advance_while rustIsWhitespace).advance 1).advance 1).advance_while
                  (fun c => c != '>')) 1
              simp only [rem] at hrem ⊢
              simp only [input_advance, input_advance_while]
              omega
          · -- element
            have hcongr := parse_elementAux_congr
              (fun q => parse_nodesF n q []) (fun q => parse_nodesF m q [])
              ((p.advance_while rustIsWhitespace).advance 1)
              (by
                intro q hqi hqp
                refine ih m q [] ?_ hnm
                simp only [input_advance, input_advance_while] at hqi
                simp only [rem] at hrem ⊢
                rw [hqi]
                rw [hp2] at hqp
                omega)
            rw [hcongr]
            have hmono := parse_elementAux_mono (fun q => parse_nodesF m q [])
              (fun q => parse_nodesF_mono m q [])
              ((p.advance_while rustIsWhitespace).advance 1)
            split
            · rename_i p3 node heq3
              rw [heq3] at hmono
              refine ih m _ _ ?_ hnm
              have h31 : ((p.advance_while rustIsWhitespace).advance 1).pos ≤ p3.pos :=
                hmono.2
              have h32 : p3.input = p.input := by
                have := hmono.1
                simpa using this
              simp only [rem] at hrem ⊢
              rw [h32]
              omega
            · rename_i p3 heq3
              rw [heq3] at hmono
              refine ih m _ _ ?_ hnm
              have h31 : ((p.advance_while rustIsWhitespace).advance 1).pos ≤ p3.pos :=
                hmono.2
              have h32 : p3.input = p.input := by
                have := hmono.1
                simpa using this
              simp only [rem] at hrem ⊢
              rw [h32]
              omega
      · -- text run
        rename_i c hne heq
        have hp1lt : (p.advance_while rustIsWhitespace).pos < p.input.length := by
          have := (p.advance_while rustIsWhitespace).pos_lt_of_next c heq
          simpa using this
        refine ih m _ _ ?_ hnm
        have hprog : (p.advance_while rustIsWhitespace).pos + 1 ≤
            ((p.advance_while rustIsWhitespace).advance_while (fun x => x != '<')).pos := by
          refine advance_while_progress _ _ c heq ?_
          have : ¬ c = '<' := fun hcc => hne hcc
          simp [this]
        simp only [rem] at hrem ⊢
        simp only [input_advance_while]
        omega
      · rfl

end XmlParser

lemma getElem?_lt {α : Type} (l : List α) (n : Nat) (c : α) (h : l[n]? = some c) :
    n < l.length := by
  by_contra hx
  rw [List.getElem?_eq_none (by omega)] at h
  exact absurd h (by simp)

lemma XmlParser.next_eq_getElem? (p : XmlParser) : p.next = p.input[p.pos]? := by
  rw [XmlParser.next, XmlParser.rest, List.head?_drop]


/-- `findChar` returns the index of the first occurrence. -/
lemma findChar_spec (c : Char) : ∀ (l : List Char) (i : Nat), findChar c l = some i →
    l[i]? = some c ∧ ∀ j, j < i → l[j]? ≠ some c := by
  intro l
  induction l with
  | nil => intro i h; rw [findChar] at h; exact absurd h (by simp)
  | cons x xs ih =>
    intro i h
    rw [findChar] at h
    by_cases hx : x = c
    · rw [if_pos hx] at h
      have : i = 0 := by
        have := h
        simp at this
        omega
      subst this
      exact ⟨by simp [hx], fun j hj => absurd hj (by omega)⟩
    · rw [if_neg hx] at h
      rcases hmap : findChar c xs with _ | j
      · rw [hmap] at h; exact absurd h (by simp)
      · rw [hmap] at h
        simp at h
        subst h
        obtain ⟨h1, h2⟩ := ih j hmap
        refine ⟨by simpa using h1, ?_⟩
        intro k hk
        rcases k with _ | k
        · simp [hx]
        · simpa using h2 k (by omega)

/-- Above the bound `length`, the result of the decode loop does not depend on
the fuel: the scan runs to completion. -/
lemma decodeLoopF_fuel (f1 : Nat) : ∀ f2 cursor buf, cursor.length < f1 → f1 ≤ f2 →
    decodeLoopF f1 cursor buf = decodeLoopF f2 cursor buf := by
  induction f1 with
  | zero => intro f2 cursor buf h _; exact absurd h (Nat.not_lt_zero _)
  | succ n ih =>
    intro f2 cursor buf hrem hle
    obtain ⟨m, rfl⟩ : ∃ m, f2 = m + 1 := ⟨f2 - 1, by omega⟩
    rw [decodeLoopF, decodeLoopF]
    split
    · rfl
    · rename_i start hfind
      dsimp only
      split
      · rfl
      · rename_i endI hfind2
        refine ih m _ _ ?_ (by omega)
        have hs := getElem?_lt _ _ _ (findChar_spec '&' cursor start hfind).1
        have hlen : ((cursor.drop start).drop (endI + 1)).length =
            cursor.length - (start + (endI + 1)) := by
          simp [Nat.sub_sub]
        omega

/-! ## The checked variants never panic -/

namespace XmlParser

lemma parse_elementCAux_eq (pnC : XmlParser → Option (XmlParser × List Node))
    (pn : XmlParser → XmlParser × List Node) (p : XmlParser)
    (hrec : ∀ q, pnC q = some (pn q))
    (hoff : 1 ≤ byteOff p.input p.pos) :
    parse_elementCAux pnC p = some (parse_elementAux pn p) := by
  rw [parse_elementCAux, parse_elementAux]
  dsimp only
  split
  · rw [if_neg (by omega)]
  · rw [if_neg (by omega)]
    simp only [hrec]
  · rfl

lemma parse_nodesCF_eq (fuel : Nat) : ∀ p nodes,
    parse_nodesCF fuel p nodes = some (parse_nodesF fuel p nodes) := by
  induction fuel with
  | zero => intro p nodes; rfl
  | succ n ih =>
    intro p nodes
    rw [parse_nodesCF, parse_nodesF]
    by_cases hc : p.eof = true
    · rw [if_pos hc, if_pos hc]
    · rw [if_neg hc, if_neg hc]
      dsimp only
      split
      · -- some '<'
        rename_i heq
        by_cases hsw : ((p.advance_while rustIsWhitespace).starts_with ['<', '/']) = true
        · rw [if_pos hsw, if_pos hsw]
        · rw [if_neg hsw, if_neg hsw]
          split
          · exact ih _ _
          · split
            · exact ih _ _
            · exact ih _ _
            · exact ih _ _
          · -- element
            have hoff : 1 ≤ byteOff ((p.advance_while rustIsWhitespace).advance 1).input
                ((p.advance_while rustIsWhitespace).advance 1).pos := by
              have hg : (p.advance_while rustIsWhitespace).input[(p.advance_while
                  rustIsWhitespace).pos]? = some '<' := by
                rw [← next_eq_getElem?]; exact heq
              have hp2 : ((p.advance_while rustIsWhitespace).advance 1).pos =
                  (p.advance_while rustIsWhitespace).pos + 1 := pos_advance_one _ '<' heq
              simp only [input_advance, input_advance_while, hp2]
              simp only [input_advance_while] at hg
              exact byteOff_succ_pos _ _ '<' hg
            have helemC := parse_elementCAux_eq (fun q => parse_nodesCF n q [])
              (fun q => parse_nodesF n q [])
              ((p.advance_while rustIsWhitespace).advance 1) (fun q => ih q []) hoff
            rcases helems : parse_elementAux (fun q => parse_nodesF n q [])
                ((p.advance_while rustIsWhitespace).advance 1) with ⟨p3, opt⟩
            rw [helems] at helemC
            rw [helemC]
            rcases opt with _ | node
            · exact ih _ _
            · exact ih _ _
      · exact ih _ _
      · rfl

end XmlParser

lemma decodeLoopCF_eq (fuel : Nat) : ∀ cursor buf,
    decodeLoopCF fuel cursor buf = some (decodeLoopF fuel cursor buf) := by
  induction fuel with
  | zero => intro cursor buf; rfl
  | succ n ih =>
    intro cursor buf
    rw [decodeLoopCF, decodeLoopF]
    split
    · rfl
    · rename_i start hfind
      dsimp only
      split
      · rfl
      · rename_i endI hfind2
        have hamp : (cursor.drop start)[0]? = some '&' := by
          rw [← List.head?_drop] at *
          have h1 := (findChar_spec '&' cursor start hfind).1
          rw [← List.head?_drop] at h1
          simpa using h1
        have hsemi := findChar_spec ';' (cursor.drop start) endI hfind2
        have hend0 : endI ≠ 0 := by
          intro h0
          subst h0
          rw [hsemi.1] at hamp
          exact absurd hamp (by simp)
        split
        · exact ih _ _
        · split
          · rename_i hh
            have hhash : (cursor.drop start)[1]? = some '#' := by
              rw [← List.head?_drop]
              rw [List.head?_drop] at hh
              simpa using hh
            have hend1 : endI ≠ 1 := by
              intro h1
              subst h1
              rw [hsemi.1] at hhash
              exact absurd hhash (by simp)
            rw [if_neg ?hdrift]
            case hdrift =>
              by_cases hx : ((cursor.drop start).drop 2).head? = some 'x'
              · have hxg : (cursor.drop start)[2]? = some 'x' := by
                  rw [← List.head?_drop]
                  simpa using hx
                have hend2 : endI ≠ 2 := by
                  intro h2
                  subst h2
                  rw [hsemi.1] at hxg
                  exact absurd hxg (by simp)
                rw [if_pos hx]
                omega
              · rw [if_neg hx]
                omega
            split
            · exact ih _ _
            · exact ih _ _
          · exact ih _ _


/-! ## The offset invariant -/


namespace XmlParser

lemma parse_elementAux_offsets (pn : XmlParser → XmlParser × List Node)
    (p : XmlParser)
    (hpn : ∀ q, q.input = p.input → ∀ x ∈ (pn q).2, NodeOk p.input x)
    (hlt : p.input[p.pos - 1]? = some '<') (hpos : 1 ≤ p.pos) :
    ∀ n, (parse_elementAux pn p).2 = some n → NodeOk p.input n := by
  intro n hn
  have hko : byteOff p.input p.pos - 1 = byteOff p.input (p.pos - 1) := by
    have hs := byteOff_succ p.input (p.pos - 1) '<' hlt
    have h1 : p.pos - 1 + 1 = p.pos := by omega
    rw [h1] at hs
    have hu : '<'.utf8Size = 1 := by decide
    rw [hu] at hs
    omega
  rw [parse_elementAux] at hn
  dsimp only at hn
  split at hn
  · simp only [Option.some.injEq] at hn
    subst hn
    exact NodeOk.element ⟨p.pos - 1, hlt, hko⟩ (by intro c hc; exact absurd hc (by simp))
  · simp only [Option.some.injEq] at hn
    subst hn
    refine NodeOk.element ⟨p.pos - 1, hlt, hko⟩ ?_
    intro c hc
    refine hpn _ ?_ c hc
    simp only [input_advance]
    exact (parse_attributes_mono _).1.trans (by simp only [input_advance_while])
  · exact absurd hn (by simp)

/-- Every node produced by the parse loop satisfies the offset invariant,
provided the accumulated nodes do. -/
lemma parse_nodesF_offsets (fuel : Nat) : ∀ p nodes,
    (∀ x ∈ nodes, NodeOk p.input x) →
    ∀ n ∈ (parse_nodesF fuel p nodes).2, NodeOk p.input n := by
  induction fuel with
  | zero => intro p nodes hacc n hn; exact hacc n hn
  | succ m ih =>
    intro p nodes hacc n hn
    rw [parse_nodesF] at hn
    by_cases hc : p.eof = true
    · rw [if_pos hc] at hn; exact hacc n hn
    · rw [if_neg hc] at hn
      dsimp only at hn
      split at hn
      · -- some '<'
        rename_i heq
        have hws : ∀ x ∈ (if p.pos < (p.advance_while rustIsWhitespace).pos then
            nodes ++ [whitespace (p.slice p.pos (p.advance_while rustIsWhitespace).pos)
              (byteOff p.input p.pos)] else nodes), NodeOk p.input x := by
          intro x hx
          split at hx
          · rcases List.mem_append.1 hx with hx1 | hx2
            · exact hacc x hx1
            · have : x = whitespace (p.slice p.pos (p.advance_while rustIsWhitespace).pos)
                  (byteOff p.input p.pos) := by simpa using hx2
              subst this
              exact NodeOk.whitespace ⟨p.pos, rfl, by
                rw [slice]
                exact List.take_prefix _ _⟩
          · exact hacc x hx
        split at hn
        · exact hws n hn
        · split at hn
          · -- some '?'
            have hinp : ((((p.advance_while rustIsWhitespace).advance
                1).advance 1).advance_until ['?', '>']).input = p.input := by
              rw [(advance_until_mono _ _).1]
              simp only [input_advance, input_advance_while]
            have := ih _ _ (fun x hx => by rw [hinp]; exact hws x hx) n hn
            rw [hinp] at this
            exact this
          · split at hn
            · have hinp : (((((p.advance_while rustIsWhitespace).advance 1).advance
                  1).advance 2).advance_until ['-', '-', '>']).input = p.input := by
                rw [(advance_until_mono _ _).1]
                simp only [input_advance, input_advance_while]
              have := ih _ _ (fun x hx => by rw [hinp]; exact hws x hx) n hn
              rw [hinp] at this
              exact this
            · have hinp : (((((p.advance_while rustIsWhitespace).advance 1).advance
                  1).advance 1).advance_until [']', ']', '>']).input = p.input := by
                rw [(advance_until_mono _ _).1]
                simp only [input_advance, input_advance_while]
              have := ih _ _ (fun x hx => by rw [hinp]; exact hws x hx) n hn
              rw [hinp] at this
              exact this
            · have hinp : (((((p.advance_while rustIsWhitespace).advance 1).advance
                  1).advance_while (fun c => c != '>')).advance 1).input = p.input := by
                simp only [input_advance, input_advance_while]
              have := ih _ _ (fun x hx => by rw [hinp]; exact hws x hx) n hn
              rw [hinp] at this
              exact this
          · -- element
            rename_i hne1 hne2
            have hp2pos : ((p.advance_while rustIsWhitespace).advance 1).pos =
                (p.advance_while rustIsWhitespace).pos + 1 := pos_advance_one _ '<' heq
            have hp2in : ((p.advance_while rustIsWhitespace).advance 1).input = p.input := by
              simp only [input_advance, input_advance_while]
            have hlt2 : ((p.advance_while rustIsWhitespace).advance 1).input[
                ((p.advance_while rustIsWhitespace).advance 1).pos - 1]? = some '<' := by
              rw [hp2in, hp2pos]
              simp only [Nat.add_sub_cancel]
              have := (p.advance_while rustIsWhitespace).next_eq_getElem?
              rw [this] at heq
              simpa using heq
            have helemOk := parse_elementAux_offsets (fun q => parse_nodesF m q [])
              ((p.advance_while rustIsWhitespace).advance 1)
              (by
                intro q hqi x hx
                have := ih q [] (by simp) x hx
                rw [hqi] at this
                exact this)
              hlt2 (by omega)
            split at hn
            · rename_i p3 node heq3
              have hmono := parse_elementAux_mono (fun q => parse_nodesF m q [])
                (fun q => parse_nodesF_mono m q [])
                ((p.advance_while rustIsWhitespace).advance 1)
              rw [heq3] at hmono
              have hp3in : p3.input = p.input := by
                have := hmono.1
                simpa using this
              have hnodeOk : NodeOk p.input node := by
                have := helemOk node (by rw [heq3])
                rw [hp2in] at this
                exact this
              have := ih p3 _ (by
                intro x hx
                rw [hp3in]
                rcases List.mem_append.1 hx with hx1 | hx2
                · exact hws x hx1
                · have : x = node := by simpa using hx2
                  subst this
                  exact hnodeOk) n hn
              rw [hp3in] at this
              exact this
            · rename_i p3 heq3
              have hmono := parse_elementAux_mono (fun q => parse_nodesF m q [])
                (fun q => parse_nodesF_mono m q [])
                ((p.advance_while rustIsWhitespace).advance 1)
              rw [heq3] at hmono
              have hp3in : p3.input = p.input := by
                have := hmono.1
                simpa using this
              have := ih p3 _ (fun x hx => by rw [hp3in]; exact hws x hx) n hn
              rw [hp3in] at this
              exact this
      · -- text
        rename_i c hne heq
        have hinp : ((p.advance_while rustIsWhitespace).advance_while
            (fun x => x != '<')).input = p.input := by
          simp only [input_advance_while]
        have := ih _ _ (by
          intro x hx
          rw [hinp]
          rcases List.mem_append.1 hx with hx1 | hx2
          · exact hacc x hx1
          · have : x = text (p.slice p.pos ((p.advance_while rustIsWhitespace).advance_while
                (fun x => x != '<')).pos) (byteOff p.input p.pos) := by simpa using hx2
            subst this
            exact NodeOk.text ⟨p.pos, rfl, by rw [slice]; exact List.take_prefix _ _⟩) n hn
        rw [hinp] at this
        exact this
      · exact hacc n hn

end XmlParser

/-! ## Concrete scan computation lemmas -/

lemma takeWhile_append_cons {α : Type} (f : α → Bool) (a : List α) (c : α)
    (b : List α) (ha : ∀ x ∈ a, f x = true) (hc : f c = false) :
    (a ++ c :: b).takeWhile f = a := by
  induction a with
  | nil => simp [List.takeWhile_cons, hc]
  | cons x t ih =>
    have hx := ha x (by simp)
    simp only [List.cons_append, List.takeWhile_cons, hx, if_true]
    rw [ih (fun y hy => ha y (List.mem_cons_of_mem x hy))]

lemma takeWhile_of_all {α : Type} (f : α → Bool) (l : List α)
    (h : ∀ x ∈ l, f x = true) : l.takeWhile f = l := by
  induction l with
  | nil => rfl
  | cons x t ih =>
    have hx := h x (by simp)
    simp only [List.takeWhile_cons, hx, if_true]
    rw [ih (fun y hy => h y (List.mem_cons_of_mem x hy))]

namespace XmlParser

lemma rest_mk (input : List Char) (pos : Nat) :
    (⟨input, pos⟩ : XmlParser).rest = input.drop pos := rfl

lemma rest_shift (p : XmlParser) (k : Nat) :
    (⟨p.input, p.pos + k⟩ : XmlParser).rest = p.rest.drop k := by
  rw [rest_mk, drop_add, ← rest]

lemma advance_concrete (p : XmlParser) (n : Nat) (h : n ≤ p.rest.length) :
    p.advance n = ⟨p.input, p.pos + n⟩ := by
  rw [advance, Nat.min_eq_left h]

lemma advance_while_split (p : XmlParser) (f : Char → Bool) (a : List Char)
    (c : Char) (b : List Char) (h : p.rest = a ++ c :: b)
    (ha : ∀ x ∈ a, f x = true) (hc : f c = false) :
    p.advance_while f = ⟨p.input, p.pos + a.length⟩ := by
  rw [advance_while, h, takeWhile_append_cons f a c b ha hc]

lemma advance_while_all (p : XmlParser) (f : Char → Bool)
    (h : ∀ x ∈ p.rest, f x = true) :
    p.advance_while f = ⟨p.input, p.pos + p.rest.length⟩ := by
  rw [advance_while, takeWhile_of_all _ _ h]

lemma next_of_rest (p : XmlParser) (c : Char) (b : List Char)
    (h : p.rest = c :: b) : p.next = some c := by
  rw [next, h]
  rfl

lemma eof_false_of_rest (p : XmlParser) (c : Char) (b : List Char)
    (h : p.rest = c :: b) : p.eof = false :=
  p.eof_false_of_next c (p.next_of_rest c b h)

lemma starts_with_true (p : XmlParser) (s b : List Char) (h : p.rest = s ++ b) :
    p.starts_with s = true := by
  rw [starts_with, h]
  exact List.isPrefixOf_iff_prefix.2 (List.prefix_append s b)

end XmlParser

/-! ## Claim theorems -/

/-- **C2** (amended): every node in the tree returned by `parse`, other than
a synthesized `"root"` wrapper element, satisfies the offset invariant: an
Element carries the byte index of the `<` of its opening tag, a Text or
Whitespace node the byte index of the first byte of its content run.  The
concrete instance: parsing `"<a>bcd</a>"` yields a single child Text node
with offset 3 and content `"bcd"`. -/
theorem parse_offsets_amended (s : String) :
    (NodeOk s.data (parseString s) ∨
      ∃ children, parseString s = element "root" 0 [] children ∧
        ∀ c ∈ children, NodeOk s.data c) ∧
    parseString "<a>bcd</a>" = element "a" 0 [] [text "bcd" 3] := by
  constructor
  · have hall := XmlParser.parse_nodesF_offsets ((XmlParser.new s).input.length + 1)
      (XmlParser.new s) [] (by simp)
    have hin : (XmlParser.new s).input = s.data := rfl
    rw [hin] at hall
    rw [parseString, XmlParser.parse]
    rcases hpn : (XmlParser.new s).parse_nodes with ⟨q, ns⟩
    rw [XmlParser.parse_nodes] at hpn
    rw [hin] at hpn
    rw [hpn] at hall
    simp only at hall
    rcases ns with _ | ⟨a, _ | ⟨b, t⟩⟩
    · right; exact ⟨[], rfl, by simp⟩
    · left; exact hall a (by simp)
    · right; exact ⟨a :: b :: t, rfl, hall⟩
  · rfl

/-- Counterexample to **C2** as stated: for the empty input, `parse` returns
the synthesized root Element at offset 0, but the buffer contains no `<` at
any byte index, so the offset invariant fails on the returned tree. -/
theorem parse_offsets_counterexample :
    parseString "" = element "root" 0 [] [] ∧ ¬ NodeOk "".data (parseString "") := by
  refine ⟨rfl, ?_⟩
  intro h
  have h2 : NodeOk "".data (element "root" 0 [] []) := h
  cases h2 with
  | element hex hch =>
    obtain ⟨k, hk, _⟩ := hex
    have hk2 : ([] : List Char)[k]? = some '<' := hk
    simp at hk2



/-- **C1** (Totality): for every input string — malformed, truncated or empty —
`parse` and `decode_entities` run to completion and return a value.  The
checked variants return `none` exactly where a Rust panic could occur (the
`offset - 1` underflow in `parse_element`, entered only after consuming the
one-byte `<`, and the numeric-entity slice `&cursor[drift_index..end_index]`,
whose bounds are always ordered because `&` and `#` precede the first `;`);
they always return `some`.  Moreover the result is independent of the fuel
above the `input.length` bound: the scan loops terminate, consuming at least
one code point per iteration.  (String slices landing on character boundaries
is structural in this embedding: all offsets are code-point indices.) -/
theorem parse_and_decode_total (s : String) :
    parseStringC s = some (parseString s) ∧
    decode_entitiesC s = some (decode_entities s) ∧
    (∀ fuel, s.data.length < fuel →
      XmlParser.parse_nodesF fuel (XmlParser.new s) [] = (XmlParser.new s).parse_nodes) ∧
    (∀ fuel, s.data.length < fuel → decodeLoopF fuel s.data [] = decodeList s.data) := by
  have hrem : (XmlParser.new s).rem = s.data.length := by
    simp [XmlParser.rem, XmlParser.new]
  refine ⟨?_, ?_, ?_, ?_⟩
  · rw [parseStringC, parseString, XmlParser.parse, XmlParser.parse_nodes]
    rw [XmlParser.parse_nodesCF_eq]
    rcases hpn : XmlParser.parse_nodesF ((XmlParser.new s).input.length + 1)
        (XmlParser.new s) [] with ⟨q, ns⟩
    rcases ns with _ | ⟨a, _ | ⟨b, t⟩⟩ <;> rfl
  · rw [decode_entitiesC, decode_entities]
    rcases hf : findChar '&' s.data with _ | i
    · rfl
    · rw [decodeLoopCF_eq]
      rfl
  · intro fuel hf
    rw [XmlParser.parse_nodes]
    exact (XmlParser.parse_nodesF_fuel (s.data.length + 1) fuel (XmlParser.new s) []
      (by omega) (by omega)).symm
  · intro fuel hf
    rw [decodeList]
    exact (decodeLoopF_fuel (s.data.length + 1) fuel s.data [] (by omega) (by omega)).symm

/-- Witness for the totality theorem at a concrete input and fuel. -/
theorem parse_and_decode_total_witness :
    parseStringC "<a>&lt;" = some (parseString "<a>&lt;") ∧
    decode_entitiesC "<a>&lt;" = some (decode_entities "<a>&lt;") ∧
    XmlParser.parse_nodesF 9 (XmlParser.new "<a>&lt;") [] =
      (XmlParser.new "<a>&lt;").parse_nodes ∧
    decodeLoopF 9 "<a>&lt;".data [] = decodeList "<a>&lt;".data := by
  obtain ⟨h1, h2, h3, h4⟩ := parse_and_decode_total "<a>&lt;"
  exact ⟨h1, h2, h3 9 (by decide), h4 9 (by decide)⟩

/-- **C3** (Root-wrapping rule): if top-level parsing yields exactly one node,
`parse` returns that node directly, unwrapped; otherwise (zero top-level
nodes, or more than one) `parse` returns a synthesized Element named `"root"`
at offset 0 with an empty attribute map whose children are exactly the
top-level nodes in their original document order. -/
theorem parse_root_wrapping (s : String) :
    (∀ n, ((XmlParser.new s).parse_nodes).2 = [n] → parseString s = n) ∧
    (∀ ns, ((XmlParser.new s).parse_nodes).2 = ns → ns.length ≠ 1 →
      parseString s = element "root" 0 [] ns) := by
  constructor
  · intro n h
    rw [parseString, XmlParser.parse]
    rcases hpn : (XmlParser.new s).parse_nodes with ⟨q, ns⟩
    rw [hpn] at h
    simp only at h
    subst h
    rfl
  · intro ns h hne
    rw [parseString, XmlParser.parse]
    rcases hpn : (XmlParser.new s).parse_nodes with ⟨q, ns2⟩
    rw [hpn] at h
    simp only at h
    subst h
    rcases ns2 with _ | ⟨a, _ | ⟨b, t⟩⟩
    · rfl
    · exact absurd rfl hne
    · rfl

/-- Witness for the root-wrapping rule: an input with two top-level nodes is
wrapped, an input with exactly one is returned unwrapped. -/
theorem parse_root_wrapping_witness :
    parseString "x<a/>" = element "root" 0 [] [text "x" 0, element "a" 1 [] []] ∧
    parseString "<a/>" = element "a" 0 [] [] := by
  constructor
  · exact (parse_root_wrapping "x<a/>").2 [text "x" 0, element "a" 1 [] []] rfl (by decide)
  · exact (parse_root_wrapping "<a/>").1 (element "a" 0 [] []) rfl

/-- **C7** (End-tag leniency): when the sibling scan meets `</`, it consumes
up to and including the next `>` and terminates the current level with the
nodes accumulated so far, regardless of the end-tag name (`a` below is any
name not containing `>`); e.g. `"<a></b>"` parses to one Element named
`"a"` with no children, just as `"<a></a>"` does. -/
theorem end_tag_leniency (fuel : Nat) (p : XmlParser) (nodes : List Node)
    (a b : List Char) (h : p.rest = '<' :: '/' :: a ++ '>' :: b) (ha : '>' ∉ a) :
    XmlParser.parse_nodesF (fuel + 1) p nodes =
      (⟨p.input, p.pos + (a.length + 3)⟩, nodes) ∧
    parseString "<a></b>" = element "a" 0 [] [] ∧
    parseString "<a></a>" = element "a" 0 [] [] := by
  refine ⟨?_, rfl, rfl⟩
  rw [XmlParser.parse_nodesF,
    if_neg (by simp [p.eof_false_of_rest '<' _ h])]
  dsimp only
  have hp1 : p.advance_while rustIsWhitespace = p := by
    have h0 := XmlParser.advance_while_split p rustIsWhitespace [] '<'
      ('/' :: a ++ '>' :: b) (by simpa using h) (by simp) (by decide)
    simpa using h0
  rw [hp1]
  have hnext : p.next = some '<' := p.next_of_rest '<' _ h
  simp only [hnext]
  rw [if_neg (show ¬ p.pos < p.pos by omega)]
  rw [if_pos (p.starts_with_true ['<', '/'] (a ++ '>' :: b) (by simpa using h))]
  have hp2 : p.advance 2 = ⟨p.input, p.pos + 2⟩ := by
    refine XmlParser.advance_concrete p 2 ?_
    rw [h]
    simp
  rw [hp2]
  have hrest2 : (⟨p.input, p.pos + 2⟩ : XmlParser).rest = a ++ '>' :: b := by
    rw [XmlParser.rest_shift p 2, h]
    rfl
  have hp3 : (⟨p.input, p.pos + 2⟩ : XmlParser).advance_while (fun c => c != '>') =
      ⟨p.input, p.pos + 2 + a.length⟩ := by
    have h0 := XmlParser.advance_while_split ⟨p.input, p.pos + 2⟩
      (fun c => c != '>') a '>' b hrest2
      (fun x hx => by
        simp only [bne_iff_ne, ne_eq, decide_eq_true_eq]
        exact fun hxx => ha (hxx ▸ hx))
      (by simp)
    simpa using h0
  rw [hp3]
  have hrest3 : (⟨p.input, p.pos + 2 + a.length⟩ : XmlParser).rest = '>' :: b := by
    have he : p.pos + 2 + a.length = p.pos + (a.length + 1 + 1) := by omega
    rw [he, XmlParser.rest_shift p (a.length + 1 + 1), h]
    simp [List.drop_append_eq_append_drop]
  have hp4 : (⟨p.input, p.pos + 2 + a.length⟩ : XmlParser).advance 1 =
      ⟨p.input, p.pos + 2 + a.length + 1⟩ := by
    refine XmlParser.advance_concrete _ 1 ?_
    rw [hrest3]
    simp
  rw [hp4]
  have : p.pos + 2 + a.length + 1 = p.pos + (a.length + 3) := by omega
  rw [this]

/-- Witness for end-tag leniency at a concrete state: scanning `"</xy>z"`
from position 0 consumes the whole end tag (5 code points) and closes the
level with no nodes. -/
theorem end_tag_leniency_witness :
    XmlParser.parse_nodesF 6 ⟨"</xy>z".data, 0⟩ [] = (⟨"</xy>z".data, 5⟩, []) ∧
    parseString "<a></b>" = element "a" 0 [] [] := by
  obtain ⟨h1, h2, h3⟩ := end_tag_leniency 5 ⟨"</xy>z".data, 0⟩ []
    ['x', 'y'] ['z'] rfl (by decide)
  exact ⟨h1, h2⟩

/-- **C9** (Whitespace node emission): when the sibling scan skips a nonempty
whitespace run that is followed by a `<`, it emits a Whitespace node holding
exactly the skipped span, at the span's starting byte offset, and continues
from the `<` — `Whitespace` being a constructor distinct from `Text`.
Concrete instance: `"<a><b>x</b> <c>y</c></a>"` has as second child of the
root element the Whitespace node `" "` at byte offset 11. -/
theorem whitespace_emission (fuel : Nat) (p : XmlParser) (nodes : List Node)
    (w r : List Char) (hr : p.rest = w ++ '<' :: r) (hw : w ≠ [])
    (hall : ∀ x ∈ w, rustIsWhitespace x = true) :
    XmlParser.parse_nodesF (fuel + 1) p nodes =
      XmlParser.parse_nodesF (fuel + 1) ⟨p.input, p.pos + w.length⟩
        (nodes ++ [whitespace (String.mk w) (byteOff p.input p.pos)]) ∧
    (∀ s o s2 o2, whitespace s o ≠ text s2 o2) ∧
    parseString "<a><b>x</b> <c>y</c></a>" =
      element "a" 0 [] [element "b" 3 [] [text "x" 6], whitespace " " 11,
        element "c" 12 [] [text "y" 15]] := by
  refine ⟨?_, by intro s o s2 o2 hcon; exact Node.noConfusion hcon, rfl⟩
  have hrne : p.rest ≠ [] := by
    rw [hr]
    rcases w with _ | ⟨x, t⟩
    · simp
    · simp
  have hq : (⟨p.input, p.pos + w.length⟩ : XmlParser).rest = '<' :: r := by
    rw [XmlParser.rest_shift p w.length, hr, List.drop_left]
  conv_lhs => rw [XmlParser.parse_nodesF]
  conv_rhs => rw [XmlParser.parse_nodesF]
  rw [if_neg (by
    rcases hre : p.rest with _ | ⟨x, t⟩
    · exact absurd hre hrne
    · simp [p.eof_false_of_rest x t hre])]
  rw [if_neg (by simp [XmlParser.eof_false_of_rest _ '<' r hq])]
  dsimp only
  have hp1 : p.advance_while rustIsWhitespace = ⟨p.input, p.pos + w.length⟩ :=
    XmlParser.advance_while_split p rustIsWhitespace w '<' r hr hall (by decide)
  rw [hp1]
  have hq1 : (⟨p.input, p.pos + w.length⟩ : XmlParser).advance_while rustIsWhitespace =
      ⟨p.input, p.pos + w.length⟩ := by
    have h0 := XmlParser.advance_while_split ⟨p.input, p.pos + w.length⟩
      rustIsWhitespace [] '<' r (by simpa using hq) (by simp) (by decide)
    simpa using h0
  rw [hq1]
  have hnext : (⟨p.input, p.pos + w.length⟩ : XmlParser).next = some '<' :=
    XmlParser.next_of_rest _ '<' r hq
  simp only [hnext]
  have hwlen : w.length ≠ 0 := by
    rcases w with _ | _
    · exact absurd rfl hw
    · simp
  rw [if_pos (show p.pos < p.pos + w.length by omega)]
  rw [if_neg (show ¬ p.pos + w.length < p.pos + w.length by omega)]
  have hslice : p.slice p.pos (p.pos + w.length) = String.mk w := by
    rw [XmlParser.slice]
    congr 1
    have h1 : p.pos + w.length - p.pos = w.length := by omega
    rw [h1, ← XmlParser.rest, hr, List.take_left]
  rw [hslice]

/-- Witness for whitespace emission at a concrete state: scanning `" <a/>"`
emits `Whitespace " "` at byte offset 0 and continues at position 1. -/
theorem whitespace_emission_witness :
    XmlParser.parse_nodesF 6 ⟨" <a/>".data, 0⟩ [] =
      XmlParser.parse_nodesF 6 ⟨" <a/>".data, 1⟩ [whitespace " " 0] ∧
    parseString "<a><b>x</b> <c>y</c></a>" =
      element "a" 0 [] [element "b" 3 [] [text "x" 6], whitespace " " 11,
        element "c" 12 [] [text "y" 15]] := by
  obtain ⟨h1, h2, h3⟩ := whitespace_emission 5 ⟨" <a/>".data, 0⟩ [] [' ']
    ['a', '/', '>'] rfl (by decide) (by decide)
  exact ⟨h1, h3⟩

/-! ## Attribute rendering (specification view for the attribute claim) -/


lemma attrsGet_map_update_self (m : Attributes) (k v : String)
    (hany : (m.any fun kv => kv.1 = k) = true) :
    attrsGet (m.map (fun kv => if kv.1 = k then (k, v) else kv)) k = some v := by
  induction m with
  | nil => simp at hany
  | cons kv t ih =>
    obtain ⟨a, b⟩ := kv
    rw [List.map_cons]
    by_cases hk : a = k
    · rw [if_pos (show (a, b).1 = k from hk), attrsGet, if_pos rfl]
    · rw [if_neg (show ¬ (a, b).1 = k from hk), attrsGet, if_neg hk]
      refine ih ?_
      simp only [List.any_cons, Bool.or_eq_true] at hany
      rcases hany with h1 | h1
      · exact absurd (by simpa using h1) hk
      · exact h1

lemma attrsGet_map_update_ne (m : Attributes) (k v k2 : String) (h : k2 ≠ k) :
    attrsGet (m.map (fun kv => if kv.1 = k then (k, v) else kv)) k2 =
      attrsGet m k2 := by
  induction m with
  | nil => rfl
  | cons kv t ih =>
    obtain ⟨a, b⟩ := kv
    rw [List.map_cons]
    by_cases hk : a = k
    · rw [if_pos (show (a, b).1 = k from hk), attrsGet, attrsGet,
        if_neg (fun hh => h hh.symm),
        if_neg (show ¬ a = k2 from fun hh => h (hk ▸ hh).symm)]
      exact ih
    · rw [if_neg (show ¬ (a, b).1 = k from hk), attrsGet, attrsGet]
      by_cases h2 : a = k2
      · rw [if_pos h2, if_pos h2]
      · rw [if_neg h2, if_neg h2]
        exact ih

lemma attrsGet_append_single (m : Attributes) (k v : String) :
    attrsGet (m ++ [(k, v)]) k = some ((attrsGet m k).getD v) := by
  induction m with
  | nil => simp [attrsGet]
  | cons kv t ih =>
    obtain ⟨a, b⟩ := kv
    rw [List.cons_append, attrsGet, attrsGet]
    by_cases hk : a = k
    · rw [if_pos hk, if_pos hk]
      rfl
    · rw [if_neg hk, if_neg hk]
      exact ih

lemma attrsGet_append_single_ne (m : Attributes) (k v k2 : String) (h : k2 ≠ k) :
    attrsGet (m ++ [(k, v)]) k2 = attrsGet m k2 := by
  induction m with
  | nil =>
    simp only [List.nil_append, attrsGet]
    rw [if_neg (fun hh => h hh.symm)]
  | cons kv t ih =>
    obtain ⟨a, b⟩ := kv
    rw [List.cons_append, attrsGet, attrsGet]
    by_cases h2 : a = k2
    · rw [if_pos h2, if_pos h2]
    · rw [if_neg h2, if_neg h2]
      exact ih

lemma attrsGet_insert_self (m : Attributes) (k v : String) :
    attrsGet (attrsInsert m k v) k = some v := by
  rw [attrsInsert]
  split
  · rename_i hany
    exact attrsGet_map_update_self m k v hany
  · rename_i hany
    rw [attrsGet_append_single]
    have hnone : attrsGet m k = none := by
      induction m with
      | nil => rfl
      | cons kv t ih =>
        obtain ⟨a, b⟩ := kv
        rw [attrsGet]
        have hk : ¬ a = k := by
          intro hh
          exact hany (by simp [hh])
        rw [if_neg hk]
        refine ih ?_
        intro hh
        exact hany (by simp [List.any_cons, hh])
    rw [hnone]
    rfl

lemma attrsGet_insert_other (m : Attributes) (k v : String) (k2 : String)
    (h : k2 ≠ k) : attrsGet (attrsInsert m k v) k2 = attrsGet m k2 := by
  rw [attrsInsert]
  split
  · exact attrsGet_map_update_ne m k v k2 h
  · exact attrsGet_append_single_ne m k v k2 h

namespace XmlParser

/-- The attribute loop consumes a rendered attribute list up to the closing
`>`, `/` or end of input, producing exactly the inserted map. -/
lemma parse_attributesF_render :
    ∀ (specs : List (List Char × List Char × Char × List Char))
      (fuel : Nat) (p : XmlParser) (attrs : Attributes) (suffix : List Char),
      p.rest = renderAttrs specs ++ suffix →
      (∀ sp ∈ specs, attrSpecOk sp) →
      (suffix = [] ∨ (∃ t, suffix = '>' :: t) ∨ (∃ t, suffix = '/' :: t)) →
      specs.length < fuel →
      parse_attributesF fuel p attrs =
        (⟨p.input, p.pos + (renderAttrs specs).length⟩, insertSpecs attrs specs) := by
  intro specs
  induction specs with
  | nil =>
    intro fuel p attrs suffix hrest hok hsuf hfuel
    obtain ⟨f, rfl⟩ : ∃ f, fuel = f + 1 := ⟨fuel - 1, by omega⟩
    rw [renderAttrs] at hrest
    simp only [List.nil_append] at hrest
    rw [parse_attributesF]
    rcases hsuf with rfl | ⟨t, rfl⟩ | ⟨t, rfl⟩
    · rw [if_pos (p.eof_iff_rest.2 hrest)]
      rw [renderAttrs]
      simp only [insertSpecs, List.length_nil]
      rcases p with ⟨input, pos⟩
      simp
    · rw [if_neg (by simp [p.eof_false_of_rest '>' t hrest])]
      dsimp only
      have hp1 : p.advance_while rustIsWhitespace = p := by
        have h0 := advance_while_split p rustIsWhitespace [] '>' t
          (by simpa using hrest) (by simp) (by decide)
        simpa using h0
      rw [hp1]
      simp only [p.next_of_rest '>' t hrest]
      rw [renderAttrs]
      simp only [insertSpecs, List.length_nil]
      rcases p with ⟨input, pos⟩
      simp
    · rw [if_neg (by simp [p.eof_false_of_rest '/' t hrest])]
      dsimp only
      have hp1 : p.advance_while rustIsWhitespace = p := by
        have h0 := advance_while_split p rustIsWhitespace [] '/' t
          (by simpa using hrest) (by simp) (by decide)
        simpa using h0
      rw [hp1]
      simp only [p.next_of_rest '/' t hrest]
      rw [renderAttrs]
      simp only [insertSpecs, List.length_nil]
      rcases p with ⟨input, pos⟩
      simp
  | cons sp sps ih =>
    intro fuel p attrs suffix hrest hok hsuf hfuel
    obtain ⟨f, rfl⟩ : ∃ f, fuel = f + 1 := ⟨fuel - 1, by omega⟩
    obtain ⟨w, k, q, v⟩ := sp
    have hsp := hok (w, k, q, v) (List.mem_cons_self _ _)
    rw [attrSpecOk] at hsp
    obtain ⟨hw, hkne, hkhead, hkeq, hq, hqv⟩ := hsp
    rcases k with _ | ⟨kc, kt⟩
    · exact absurd rfl hkne
    obtain ⟨hkgt, hksl, hkeqc, hkws⟩ := hkhead kc rfl
    rw [renderAttrs, renderAttr] at hrest
    have hrest' : p.rest = w ++ (kc :: (kt ++ ('=' :: q :: (v ++ [q])) ++
        (renderAttrs sps ++ suffix))) := by
      rw [hrest]
      simp [List.append_assoc]
    rw [parse_attributesF]
    rw [if_neg (by
      rcases w with _ | ⟨x, t⟩
      · simp only [List.nil_append] at hrest'
        simp [p.eof_false_of_rest kc _ hrest']
      · simp only [List.cons_append] at hrest'
        simp [p.eof_false_of_rest x _ hrest'])]
    dsimp only
    have hp1 : p.advance_while rustIsWhitespace = ⟨p.input, p.pos + w.length⟩ :=
      advance_while_split p rustIsWhitespace w kc _ hrest' hw hkws
    rw [hp1]
    have hrest1 : (⟨p.input, p.pos + w.length⟩ : XmlParser).rest =
        kc :: (kt ++ ('=' :: q :: (v ++ [q])) ++ (renderAttrs sps ++ suffix)) := by
      rw [rest_shift p w.length, hrest', List.drop_left]
    simp only [next_of_rest _ kc _ hrest1]
    split
    · rename_i heqc
      exact absurd (by simpa using heqc) hkgt
    · rename_i heqc
      exact absurd (by simpa using heqc) hksl
    · rename_i heqc
      exact absurd heqc (by simp)
    · -- the real attribute arm
      have hkall : ∀ x ∈ kc :: kt, (x != '=') = true := by
        intro x hx
        simp only [bne_iff_ne, ne_eq, decide_eq_true_eq]
        intro hxx
        exact hkeq (hxx ▸ hx)
      have hp2 : (⟨p.input, p.pos + w.length⟩ : XmlParser).advance_while
          (fun c => c != '=') = ⟨p.input, p.pos + w.length + (kc :: kt).length⟩ := by
        have h0 := advance_while_split ⟨p.input, p.pos + w.length⟩
          (fun c => c != '=') (kc :: kt) '='
          (q :: (v ++ [q]) ++ (renderAttrs sps ++ suffix))
          (by rw [hrest1]; simp [List.append_assoc]) hkall (by simp)
        simpa using h0
      rw [hp2]
      have hkey : (⟨p.input, p.pos + w.length⟩ : XmlParser).slice
          (p.pos + w.length) (p.pos + w.length + (kc :: kt).length) =
          String.mk (kc :: kt) := by
        rw [slice]
        congr 1
        have h1 : p.pos + w.length + (kc :: kt).length - (p.pos + w.length) =
            (kc :: kt).length := by omega
        rw [h1]
        have h2 : ((⟨p.input, p.pos + w.length⟩ : XmlParser).input).drop
            (p.pos + w.length) = (kc :: kt) ++ ('=' :: q :: (v ++ [q]) ++
            (renderAttrs sps ++ suffix)) := by
          have h3 : ((⟨p.input, p.pos + w.length⟩ : XmlParser).input).drop
              (p.pos + w.length) = kc :: (kt ++ ('=' :: q :: (v ++ [q])) ++
              (renderAttrs sps ++ suffix)) := hrest1
          rw [h3]
          simp [List.append_assoc]
        rw [h2, List.take_left]
      rw [hkey]
      have hrest2 : (⟨p.input, p.pos + w.length + (kc :: kt).length⟩ : XmlParser).rest =
          '=' :: (q :: (v ++ [q]) ++ (renderAttrs sps ++ suffix)) := by
        have he : p.pos + w.length + (kc :: kt).length =
            p.pos + (w.length + (kc :: kt).length) := by omega
        rw [he, rest_shift p _, hrest']
        rw [show w ++ (kc :: (kt ++ ('=' :: q :: (v ++ [q])) ++
            (renderAttrs sps ++ suffix))) = (w ++ (kc :: kt)) ++
            ('=' :: (q :: (v ++ [q]) ++ (renderAttrs sps ++ suffix))) by
          simp [List.append_assoc]]
        rw [show w.length + (kc :: kt).length = (w ++ (kc :: kt)).length by simp]
        rw [List.drop_left]
      have hqpred : (fun c => c != '"' && c != '\'') q = false := by
        rcases hq with rfl | rfl <;> decide
      have hp3 : (⟨p.input, p.pos + w.length + (kc :: kt).length⟩ : XmlParser).advance_while
          (fun c => c != '"' && c != '\'') =
          ⟨p.input, p.pos + w.length + (kc :: kt).length + 1⟩ := by
        have h0 := advance_while_split ⟨p.input, p.pos + w.length + (kc :: kt).length⟩
          (fun c => c != '"' && c != '\'') ['='] q
          (v ++ [q] ++ (renderAttrs sps ++ suffix))
          (by rw [hrest2]; simp [List.append_assoc]) (by decide) hqpred
        simpa using h0
      rw [hp3]
      have hrest3 : (⟨p.input, p.pos + w.length + (kc :: kt).length + 1⟩ : XmlParser).rest =
          q :: (v ++ [q] ++ (renderAttrs sps ++ suffix)) := by
        have he : p.pos + w.length + (kc :: kt).length + 1 =
            p.pos + w.length + (kc :: kt).length + 1 := rfl
        rw [show (⟨p.input, p.pos + w.length + (kc :: kt).length + 1⟩ : XmlParser) =
          ⟨(⟨p.input, p.pos + w.length + (kc :: kt).length⟩ : XmlParser).input,
           (⟨p.input, p.pos + w.length + (kc :: kt).length⟩ : XmlParser).pos + 1⟩ from rfl]
        rw [rest_shift ⟨p.input, p.pos + w.length + (kc :: kt).length⟩ 1, hrest2]
        simp [List.append_assoc]
      have hquote : ((⟨p.input, p.pos + w.length + (kc :: kt).length + 1⟩ :
          XmlParser).next).getD '"' = q := by
        rw [next_of_rest _ q _ hrest3]
        rfl
      rw [hquote]
      have hp4 : (⟨p.input, p.pos + w.length + (kc :: kt).length + 1⟩ : XmlParser).advance 1 =
          ⟨p.input, p.pos + w.length + (kc :: kt).length + 2⟩ := by
        have h0 := advance_concrete ⟨p.input, p.pos + w.length + (kc :: kt).length + 1⟩ 1
          (by rw [hrest3]; simp)
        simpa [Nat.add_assoc] using h0
      rw [hp4]
      have hrest4 : (⟨p.input, p.pos + w.length + (kc :: kt).length + 2⟩ : XmlParser).rest =
          v ++ (q :: (renderAttrs sps ++ suffix)) := by
        rw [show (⟨p.input, p.pos + w.length + (kc :: kt).length + 2⟩ : XmlParser) =
          ⟨(⟨p.input, p.pos + w.length + (kc :: kt).length + 1⟩ : XmlParser).input,
           (⟨p.input, p.pos + w.length + (kc :: kt).length + 1⟩ : XmlParser).pos + 1⟩ from rfl]
        rw [rest_shift ⟨p.input, p.pos + w.length + (kc :: kt).length + 1⟩ 1, hrest3]
        simp [List.append_assoc]
      have hvall : ∀ x ∈ v, (x != q) = true := by
        intro x hx
        simp only [bne_iff_ne, ne_eq, decide_eq_true_eq]
        intro hxx
        exact hqv (hxx ▸ hx)
      have hp5 : (⟨p.input, p.pos + w.length + (kc :: kt).length + 2⟩ : XmlParser).advance_while
          (fun c => c != q) = ⟨p.input, p.pos + w.length + (kc :: kt).length + 2 + v.length⟩ := by
        have h0 := advance_while_split ⟨p.input, p.pos + w.length + (kc :: kt).length + 2⟩
          (fun c => c != q) v q (renderAttrs sps ++ suffix) hrest4 hvall (by simp)
        simpa using h0
      rw [hp5]
      have hvalue : (⟨p.input, p.pos + w.length + (kc :: kt).length + 2⟩ : XmlParser).slice
          (p.pos + w.length + (kc :: kt).length + 2)
          (p.pos + w.length + (kc :: kt).length + 2 + v.length) = String.mk v := by
        rw [slice]
        congr 1
        have h1 : p.pos + w.length + (kc :: kt).length + 2 + v.length -
            (p.pos + w.length + (kc :: kt).length + 2) = v.length := by omega
        rw [h1]
        have h2 : ((⟨p.input, p.pos + w.length + (kc :: kt).length + 2⟩ :
            XmlParser).input).drop (p.pos + w.length + (kc :: kt).length + 2) =
            v ++ (q :: (renderAttrs sps ++ suffix)) := hrest4
        rw [h2, List.take_left]
      rw [hvalue]
      have hrest5 : (⟨p.input, p.pos + w.length + (kc :: kt).length + 2 + v.length⟩ :
          XmlParser).rest = q :: (renderAttrs sps ++ suffix) := by
        rw [show (⟨p.input, p.pos + w.length + (kc :: kt).length + 2 + v.length⟩ : XmlParser) =
          ⟨(⟨p.input, p.pos + w.length + (kc :: kt).length + 2⟩ : XmlParser).input,
           (⟨p.input, p.pos + w.length + (kc :: kt).length + 2⟩ : XmlParser).pos + v.length⟩
           from rfl]
        rw [rest_shift ⟨p.input, p.pos + w.length + (kc :: kt).length + 2⟩ v.length, hrest4,
          List.drop_left]
      have hp6 : (⟨p.input, p.pos + w.length + (kc :: kt).length + 2 + v.length⟩ :
          XmlParser).advance 1 =
          ⟨p.input, p.pos + w.length + (kc :: kt).length + 2 + v.length + 1⟩ := by
        have h0 := advance_concrete
          ⟨p.input, p.pos + w.length + (kc :: kt).length + 2 + v.length⟩ 1
          (by rw [hrest5]; simp)
        simpa [Nat.add_assoc] using h0
      rw [hp6]
      have hrest6 : (⟨p.input, p.pos + w.length + (kc :: kt).length + 2 + v.length + 1⟩ :
          XmlParser).rest = renderAttrs sps ++ suffix := by
        rw [show (⟨p.input, p.pos + w.length + (kc :: kt).length + 2 + v.length + 1⟩ :
          XmlParser) =
          ⟨(⟨p.input, p.pos + w.length + (kc :: kt).length + 2 + v.length⟩ : XmlParser).input,
           (⟨p.input, p.pos + w.length + (kc :: kt).length + 2 + v.length⟩ : XmlParser).pos + 1⟩
           from rfl]
        rw [rest_shift ⟨p.input, p.pos + w.length + (kc :: kt).length + 2 + v.length⟩ 1,
          hrest5]
        simp
      have hih := ih f ⟨p.input, p.pos + w.length + (kc :: kt).length + 2 + v.length + 1⟩
        (attrsInsert attrs (String.mk (kc :: kt)) (String.mk v)) suffix hrest6
        (fun sp2 hsp2 => hok sp2 (by simp [hsp2])) hsuf (by simp at hfuel; omega)
      rw [hih]
      simp only [Prod.mk.injEq, XmlParser.mk.injEq, true_and]
      constructor
      · rw [renderAttrs, renderAttr]
        simp only [List.length_append, List.length_cons, List.length_nil]
        omega
      · rw [insertSpecs]

end XmlParser

/-- **C8** (Attribute parsing): within one element the attributes form a
key-to-value map.  The attribute loop maps any well-formed rendered attribute
list to exactly the map obtained by inserting each key/value pair in order;
`attrsInsert` (the observable behaviour of `HashMap::insert`) makes a repeated
key's last occurrence win; each value is delimited by whichever quote
character (`"` or `'`) opened it — an `attrSpecOk` specification only forbids
the delimiting quote inside the value, so the other quote character is kept
verbatim.  Concretely, `<a b="c" d='e"'/>` parses to attributes `b = "c"` and
`d = e"`, with the embedded double quote preserved. -/
theorem attribute_parsing :
    (∀ (specs : List (List Char × List Char × Char × List Char)) (fuel : Nat)
       (p : XmlParser) (attrs : Attributes) (suffix : List Char),
       p.rest = renderAttrs specs ++ suffix →
       (∀ sp ∈ specs, attrSpecOk sp) →
       (suffix = [] ∨ (∃ t, suffix = '>' :: t) ∨ (∃ t, suffix = '/' :: t)) →
       specs.length < fuel →
       XmlParser.parse_attributesF fuel p attrs =
         (⟨p.input, p.pos + (renderAttrs specs).length⟩, insertSpecs attrs specs)) ∧
    (∀ (m : Attributes) (k v : String), attrsGet (attrsInsert m k v) k = some v) ∧
    (∀ (m : Attributes) (k v k2 : String), k2 ≠ k →
       attrsGet (attrsInsert m k v) k2 = attrsGet m k2) ∧
    parseString "<a b=\"c\" d='e\"'/>" =
      element "a" 0 [("b", "c"), ("d", "e\"")] [] ∧
    attrsGet [("b", "c"), ("d", "e\"")] "b" = some "c" ∧
    attrsGet [("b", "c"), ("d", "e\"")] "d" = some "e\"" :=
  ⟨XmlParser.parse_attributesF_render, attrsGet_insert_self,
   attrsGet_insert_other, rfl, rfl, rfl⟩


lemma findChar_not (c : Char) : ∀ (l : List Char), c ∉ l → findChar c l = none := by
  intro l
  induction l with
  | nil => intro _; rfl
  | cons x xs ih =>
    intro h
    simp only [List.mem_cons, not_or] at h
    rw [findChar, if_neg (fun hh => h.1 hh.symm), ih h.2]
    rfl

lemma findChar_append_cons (c : Char) : ∀ (pre tail : List Char),
    c ∉ pre → findChar c (pre ++ c :: tail) = some pre.length := by
  intro pre
  induction pre with
  | nil =>
    intro tail _
    rw [List.nil_append, findChar, if_pos rfl]
    rfl
  | cons x xs ih =>
    intro tail h
    simp only [List.mem_cons, not_or] at h
    rw [List.cons_append, findChar, if_neg (fun hh => h.1 hh.symm), ih tail h.2]
    rfl

/-- One iteration of the decode scan at an `&` whose remainder holds a `;`:
the text before the `&` and the span's expansion are appended, and the scan
resumes on what follows the `;`. -/
lemma decodeLoopF_step (fuel : Nat) (pre t buf : List Char) (endI : Nat)
    (hpre : '&' ∉ pre) (hsemi : findChar ';' ('&' :: t) = some endI) :
    decodeLoopF (fuel + 1) (pre ++ '&' :: t) buf =
      decodeLoopF fuel (('&' :: t).drop (endI + 1))
        (buf ++ pre ++ entityExpansion ('&' :: t) endI) := by
  rw [decodeLoopF]
  simp only [findChar_append_cons '&' pre t hpre, List.take_left, List.drop_left,
    hsemi]
  congr 1
  rw [entityExpansion]
  split
  · simp
  · split
    · split
      · simp
      · simp
    · simp

/-- One iteration of the decode scan at an `&` with no `;` anywhere after it:
the scan ends with the whole remainder appended verbatim. -/
lemma decodeLoopF_nosemi (fuel : Nat) (pre t buf : List Char)
    (hpre : '&' ∉ pre) (hsemi : findChar ';' ('&' :: t) = none) :
    decodeLoopF (fuel + 1) (pre ++ '&' :: t) buf = buf ++ (pre ++ '&' :: t) := by
  rw [decodeLoopF]
  simp only [findChar_append_cons '&' pre t hpre, List.take_left, List.drop_left,
    hsemi]
  simp

/-- **C4** (Entity substitution): at an `&` followed (at index `endI` of its
span) by a `;`, the scan first looks up the exact substring from `&` through
`;` inclusive in the entity table and, on a hit, appends that expansion and
continues past the `;`.  Otherwise, when `#` follows the `&`, the span is
parsed as a numeric reference and a valid scalar value is appended (an
invalid number or scalar leaves the literal span); the base is 16 exactly
when a lowercase `x` follows `&#` — the digits then start after the `x` —
and 10 otherwise.  Concretely `"a &amp; b"` decodes to `"a & b"`,
`"a &lt; b &gt; c"` to `"a < b > c"`, `"a &#x003E; b"` to `"a > b"` and
`"a &#38; b"` to `"a & b"`. -/
theorem entity_substitution :
    (∀ (fuel : Nat) (pre t buf : List Char) (endI : Nat) (repl : String),
       '&' ∉ pre → findChar ';' ('&' :: t) = some endI →
       attrsGet CHARACTER_ENTITIES (String.mk (('&' :: t).take (endI + 1))) =
         some repl →
       decodeLoopF (fuel + 1) (pre ++ '&' :: t) buf =
         decodeLoopF fuel (('&' :: t).drop (endI + 1)) (buf ++ pre ++ repl.data)) ∧
    (∀ (fuel : Nat) (pre t buf : List Char) (endI : Nat),
       '&' ∉ pre → findChar ';' ('&' :: t) = some endI →
       attrsGet CHARACTER_ENTITIES (String.mk (('&' :: t).take (endI + 1))) =
         none →
       (('&' :: t).drop 1).head? = some '#' →
       decodeLoopF (fuel + 1) (pre ++ '&' :: t) buf =
         decodeLoopF fuel (('&' :: t).drop (endI + 1))
           (buf ++ pre ++
             match numericRef ('&' :: t) endI with
             | some ch => [ch]
             | none => ('&' :: t).take (endI + 1))) ∧
    (∀ (cursor : List Char) (endI : Nat),
       ((cursor.drop 2).head? = some 'x' →
         numericRef cursor endI =
           match fromStrRadix 16 ((cursor.drop 3).take (endI - 3)) with
           | some n => charFromU32 n
           | none => none) ∧
       ((cursor.drop 2).head? ≠ some 'x' →
         numericRef cursor endI =
           match fromStrRadix 10 ((cursor.drop 2).take (endI - 2)) with
           | some n => charFromU32 n
           | none => none)) ∧
    decode_entities "a &amp; b" = "a & b" ∧
    decode_entities "a &lt; b &gt; c" = "a < b > c" ∧
    decode_entities "a &#x003E; b" = "a > b" ∧
    decode_entities "a &#38; b" = "a & b" := by
  refine ⟨?_, ?_, ?_, rfl, rfl, rfl, rfl⟩
  · intro fuel pre t buf endI repl hpre hsemi hget
    rw [decodeLoopF_step fuel pre t buf endI hpre hsemi]
    congr 1
    rw [entityExpansion]
    simp only [hget]
  · intro fuel pre t buf endI hpre hsemi hget hhash
    rw [decodeLoopF_step fuel pre t buf endI hpre hsemi]
    congr 1
    rw [entityExpansion]
    simp only [hget, hhash, if_pos]
  · intro cursor endI
    constructor
    · intro hx
      rw [numericRef]
      simp only [hx, if_pos]
    · intro hx
      rw [numericRef]
      simp only [if_neg hx]

/-- **C5** (Entity pass-through on failure): an `&…;` span that is neither a
known table entity nor (when it starts `&#`) a valid numeric reference is
appended to the output literally, `&` and `;` included; and an `&` with no
`;` anywhere in the remainder ends the scan with the rest of the buffer
appended verbatim — never an error.  Concretely `"a &amp b"` and
`"a &zZz; b"` both decode to themselves. -/
theorem entity_passthrough :
    (∀ (fuel : Nat) (pre t buf : List Char) (endI : Nat),
       '&' ∉ pre → findChar ';' ('&' :: t) = some endI →
       attrsGet CHARACTER_ENTITIES (String.mk (('&' :: t).take (endI + 1))) =
         none →
       (('&' :: t).drop 1).head? ≠ some '#' →
       decodeLoopF (fuel + 1) (pre ++ '&' :: t) buf =
         decodeLoopF fuel (('&' :: t).drop (endI + 1))
           (buf ++ pre ++ ('&' :: t).take (endI + 1))) ∧
    (∀ (fuel : Nat) (pre t buf : List Char) (endI : Nat),
       '&' ∉ pre → findChar ';' ('&' :: t) = some endI →
       attrsGet CHARACTER_ENTITIES (String.mk (('&' :: t).take (endI + 1))) =
         none →
       numericRef ('&' :: t) endI = none →
       decodeLoopF (fuel + 1) (pre ++ '&' :: t) buf =
         decodeLoopF fuel (('&' :: t).drop (endI + 1))
           (buf ++ pre ++ ('&' :: t).take (endI + 1))) ∧
    (∀ (fuel : Nat) (pre t buf : List Char),
       '&' ∉ pre → findChar ';' ('&' :: t) = none →
       decodeLoopF (fuel + 1) (pre ++ '&' :: t) buf = buf ++ (pre ++ '&' :: t)) ∧
    decode_entities "a &amp b" = "a &amp b" ∧
    decode_entities "a &zZz; b" = "a &zZz; b" := by
  refine ⟨?_, ?_, ?_, rfl, rfl⟩
  · intro fuel pre t buf endI hpre hsemi hget hhash
    rw [decodeLoopF_step fuel pre t buf endI hpre hsemi]
    congr 1
    rw [entityExpansion]
    simp only [hget, if_neg hhash]
  · intro fuel pre t buf endI hpre hsemi hget hnum
    rw [decodeLoopF_step fuel pre t buf endI hpre hsemi]
    congr 1
    rw [entityExpansion]
    simp only [hget, hnum]
    split
    · rfl
    · rfl
  · intro fuel pre t buf hpre hsemi
    exact decodeLoopF_nosemi fuel pre t buf hpre hsemi

/-- **C10** (Single-pass scan skips nested ampersands): once the span from an
`&` to the first following `;` (index `endI`) has been handled — substituted
or copied literally, as `entityExpansion` describes — the scan resumes on
`(…).drop (endI + 1)`, strictly after that `;`; an `&` inside the span is
never itself considered as the start of an entity reference.  Concretely
`"&x&amp;y"` decodes to itself: the inner `&amp;` lies inside the
unrecognized span `&x&amp;` and is not decoded. -/
theorem single_pass_resume :
    (∀ (fuel : Nat) (pre t buf : List Char) (endI : Nat),
       '&' ∉ pre → findChar ';' ('&' :: t) = some endI →
       decodeLoopF (fuel + 1) (pre ++ '&' :: t) buf =
         decodeLoopF fuel (('&' :: t).drop (endI + 1))
           (buf ++ pre ++ entityExpansion ('&' :: t) endI)) ∧
    decode_entities "&x&amp;y" = "&x&amp;y" :=
  ⟨fun fuel pre t buf endI hpre hsemi =>
    decodeLoopF_step fuel pre t buf endI hpre hsemi, rfl⟩

/-- `advance_until` when the target occurs right after the first consumed
code point plus a gap free of the target's first character: the scan consumes
that code point, skips the gap, matches, and advances past the target. -/
lemma XmlParser.advance_until_found (p : XmlParser) (first : Char)
    (ts : List Char) (c : Char) (mid tail : List Char)
    (hrest : p.rest = c :: (mid ++ (first :: ts) ++ tail))
    (hmid : first ∉ mid) :
    p.advance_until (first :: ts) =
      ⟨p.input, p.pos + mid.length + ts.length + 2⟩ := by
  rw [XmlParser.advance_until.eq_def]
  dsimp only
  rw [XmlParser.advance_untilF]
  rw [if_neg (by simp [p.eof_false_of_rest c _ hrest])]
  dsimp only
  have h1 : p.advance 1 = ⟨p.input, p.pos + 1⟩ := by
    refine p.advance_concrete 1 ?_
    rw [hrest]
    simp
  rw [h1]
  have hrest1 : (⟨p.input, p.pos + 1⟩ : XmlParser).rest =
      mid ++ first :: (ts ++ tail) := by
    rw [XmlParser.rest_shift, hrest]
    simp
  have h2 : (⟨p.input, p.pos + 1⟩ : XmlParser).advance_while
      (fun x => x != first) = ⟨p.input, p.pos + 1 + mid.length⟩ :=
    XmlParser.advance_while_split _ _ mid first (ts ++ tail) hrest1
      (fun x hx => by simp; exact fun hh => hmid (hh ▸ hx)) (by simp)
  rw [h2]
  have hrest2 : (⟨p.input, p.pos + 1 + mid.length⟩ : XmlParser).rest =
      (first :: ts) ++ tail := by
    have : (⟨p.input, p.pos + 1 + mid.length⟩ : XmlParser).rest =
        (⟨p.input, (p.pos + 1) + mid.length⟩ : XmlParser).rest := rfl
    rw [this, XmlParser.rest_shift ⟨p.input, p.pos + 1⟩ mid.length, hrest1]
    simp
  rw [if_pos (XmlParser.starts_with_true _ _ _ hrest2)]
  rw [XmlParser.advance_concrete _ _ (by rw [hrest2]; simp)]
  simp only [List.length_cons]
  congr 1
  omega

/-- `advance_until` when the target's first character never occurs after the
first consumed code point: the scan consumes to end of input. -/
lemma XmlParser.advance_until_unterminated (p : XmlParser) (first : Char)
    (ts : List Char) (c : Char) (mid : List Char)
    (hrest : p.rest = c :: mid) (hmid : first ∉ mid) :
    p.advance_until (first :: ts) = ⟨p.input, p.input.length⟩ := by
  have hpos : p.pos < p.input.length := by
    by_contra hx
    rw [XmlParser.rest, List.drop_eq_nil_of_le (by omega)] at hrest
    exact absurd hrest (by simp)
  have hlen : p.input.length = p.pos + 1 + mid.length := by
    have h := congrArg List.length hrest
    rw [XmlParser.length_rest, XmlParser.rem] at h
    simp only [List.length_cons] at h
    omega
  rw [XmlParser.advance_until.eq_def]
  dsimp only
  obtain ⟨m, hm⟩ : ∃ m, p.input.length = m + 1 := ⟨p.input.length - 1, by omega⟩
  rw [hm, XmlParser.advance_untilF]
  rw [if_neg (by simp [p.eof_false_of_rest c _ hrest])]
  dsimp only
  have h1 : p.advance 1 = ⟨p.input, p.pos + 1⟩ := by
    refine p.advance_concrete 1 ?_
    rw [hrest]
    simp
  rw [h1]
  have hrest1 : (⟨p.input, p.pos + 1⟩ : XmlParser).rest = mid := by
    rw [XmlParser.rest_shift, hrest]
    simp
  have h2 : (⟨p.input, p.pos + 1⟩ : XmlParser).advance_while
      (fun x => x != first) = ⟨p.input, p.pos + 1 + mid.length⟩ := by
    have hall := XmlParser.advance_while_all ⟨p.input, p.pos + 1⟩
      (fun x => x != first)
      (fun x hx => by
        rw [hrest1] at hx
        simp
        exact fun hh => hmid (hh ▸ hx))
    rw [hrest1] at hall
    exact hall
  rw [h2]
  have hrest2 : (⟨p.input, p.pos + 1 + mid.length⟩ : XmlParser).rest = [] := by
    rw [XmlParser.rest]
    dsimp only
    rw [List.drop_eq_nil_of_le (by omega)]
  have hsw : (⟨p.input, p.pos + 1 + mid.length⟩ : XmlParser).starts_with
      (first :: ts) = false := by
    rw [XmlParser.starts_with, hrest2]
    rfl
  rw [if_neg (by simp [hsw])]
  rw [XmlParser.advance_untilF]
  rw [if_pos (by rw [XmlParser.eof]; simp; omega)]
  rw [XmlParser.advance, hrest2]
  simp
  omega

/-- **C6** (amended): on `<!--` the parser calls `advance_until "-->"`, which
always consumes one code point before its first match test and then repeatedly
skips to the next `-` and tests for `-->`; so parsing resumes after the first
`-->` found *at or after one code point past the comment opener* (for a
nonempty comment body this is the first `-->`, and content following it is
parsed into nodes normally), and if no such `-->` occurs the scan consumes to
end of input, producing no further nodes at that level. -/
theorem comment_skip_amended :
    (∀ (p : XmlParser) (c : Char) (mid tail : List Char),
       p.rest = c :: (mid ++ ['-', '-', '>'] ++ tail) →
       '-' ∉ mid →
       p.advance_until ['-', '-', '>'] = ⟨p.input, p.pos + mid.length + 4⟩) ∧
    (∀ (p : XmlParser) (c : Char) (mid : List Char),
       p.rest = c :: mid → '-' ∉ mid →
       p.advance_until ['-', '-', '>'] = ⟨p.input, p.input.length⟩) ∧
    parseString "x<!--c--><a/>" =
      element "root" 0 [] [text "x" 0, element "a" 9 [] []] ∧
    parseString "<a><!--x" = element "a" 0 [] [] := by
  refine ⟨?_, ?_, rfl, rfl⟩
  · intro p c mid tail hrest hmid
    rw [XmlParser.advance_until_found p '-' ['-', '>'] c mid tail hrest hmid]
    congr 1
  · intro p c mid hrest hmid
    exact XmlParser.advance_until_unterminated p '-' ['-', '>'] c mid hrest hmid

/-- Counterexample to **C6** as stated: in `"<!----><a/>"` the first `-->`
ends at byte 7, so the claim predicts the following `<a/>` is parsed into a
node (the sole top-level node, the element `a` at offset 7); instead
`advance_until` consumes one code point before its first match test, misses
the empty comment's own `-->`, and consumes the rest of the input, leaving an
empty top level. -/
theorem comment_skip_counterexample :
    parseString "<!----><a/>" = element "root" 0 [] [] ∧
    parseString "<!----><a/>" ≠ element "a" 7 [] [] := by
  refine ⟨rfl, ?_⟩
  intro h
  rw [show parseString "<!----><a/>" = element "root" 0 [] [] from rfl] at h
  simp [element] at h
